import Mathlib

/-!
Audio echo generator: WAV streaming player with a single-tap echo.

Shallow embedding of `Core/Src/wav_player.c` (with the header layout of
`Core/Inc/wav_player.h`) and of the PLL table lookup of `Core/Src/audioI2S.c`.

Conventions of the embedding

* `int16_t`, `int32_t`, `uint32_t` values are mathematical integers; the places where the
  C code converts between widths are written with `toInt16`, `toInt32`, `toUInt32`.
* Bytes are naturals below 256; the audio buffer is a list of 1024 bytes, and a sample is the
  little-endian two's complement reading of two consecutive bytes (the target is a
  little-endian Cortex-M4).
* `float` is IEEE-754 binary32 with round-to-nearest-even.  Every finite binary32 value is an
  integer multiple of `2^-149`; a value is represented by that integer (`Binary32`), so
  `1.0f` is `2^149`.  Infinities and NaN are outside the model.
* The statics of `wav_player.c` are the fields of `Player`; arrays are lists of the array's
  length.
-/

namespace WavPlayer

/-! ## Machine arithmetic -/

/-- Two's complement reading of an integer as `int16_t`. -/
def toInt16 (v : Int) : Int := (v + 32768) % 65536 - 32768

/-- Two's complement reading of an integer as `int32_t`. -/
def toInt32 (v : Int) : Int := (v + 2147483648) % 4294967296 - 2147483648

/-- Reduction of an integer to `uint32_t`. -/
def toUInt32 (v : Int) : Nat := (v % 4294967296).toNat

/-- Range of `int16_t`. -/
def isInt16 (v : Int) : Prop := -32768 ≤ v ∧ v ≤ 32767

instance (v : Int) : Decidable (isInt16 v) := by unfold isInt16; infer_instance

/-! ## IEEE-754 binary32, in units of `2^-149` -/

/-- A finite binary32 value `v`, stored as the integer `v * 2^149`. The binary32 values are
the integers with at most 24 significant binary digits; a statement about every `Binary32`
covers them all. -/
abbrev Binary32 := Int

/-- The value `1.0f`. -/
def f32One : Binary32 := Int.ofNat (2 ^ 149)

/-- Number of halvings that bring `t` below `2^24`, i.e. the number of low-order binary
digits of `t` that do not fit a 24-bit significand; the first argument bounds the number of
halvings and is taken to be `t` itself, which is always enough. -/
def sigShiftAux : Nat → Nat → Nat
  | 0, _ => 0
  | fuel + 1, t => if t < 2 ^ 24 then 0 else sigShiftAux fuel (t / 2) + 1

/-- Number of low-order binary digits of `t` beyond its 24 leading digits. -/
def sigShift (t : Nat) : Nat := sigShiftAux t t

/-- Round-to-nearest-even of the non-negative rational `n / d` (in units of `2^-149`) to a
value with a 24-bit significand: the quotient is cut to its 24 leading digits, and the
remainder decides the last digit, ties going to the even significand. -/
def roundBinary32 (n d : Nat) : Nat :=
  let sh := sigShift (n / d)
  let den := d * 2 ^ sh
  let q := n / den
  let r := n % den
  if den < 2 * r ∨ (2 * r = den ∧ q % 2 = 1) then (q + 1) * 2 ^ sh else q * 2 ^ sh

/-- Conversion of a decimal literal or quotient `n / d` of naturals to binary32. -/
def f32OfRat (n d : Nat) : Binary32 := Int.ofNat (roundBinary32 (n * 2 ^ 149) d)

/-- The product `delayedSample * echoDecayFactor`: the `int16_t` operand is converted to
`float` exactly, the exact product is rounded to binary32. -/
def f32MulSample (delayedSample : Int) (echoDecayFactor : Binary32) : Binary32 :=
  let p := delayedSample * echoDecayFactor
  if p < 0 then -Int.ofNat (roundBinary32 p.natAbs 1) else Int.ofNat (roundBinary32 p.natAbs 1)

/-- The conversion `(int32_t) f` of a binary32 value: the fractional part is discarded
(truncation toward zero). A value beyond the range of `int32_t`, for which C leaves the
conversion undefined, is returned as it is. -/
def f32ToInt32 (f : Binary32) : Int :=
  if f < 0 then -Int.ofNat (f.natAbs / 2 ^ 149) else Int.ofNat (f.natAbs / 2 ^ 149)

/-! ## Echo processor -/

/-- The constant `ECHO_DELAY_SAMPLES` (`#define ECHO_DELAY_SAMPLES 48000`). -/
def ECHO_DELAY_SAMPLES : Nat := 48000

/-- The constant `AUDIO_BUFFER_SIZE` (`#define AUDIO_BUFFER_SIZE 1024`). -/
def AUDIO_BUFFER_SIZE : Nat := 1024

/-- The statics `echoBuffer` (an array of `ECHO_DELAY_SAMPLES` samples, given as a list) and
`echoBufferIndex`. -/
structure EchoState where
  echoBuffer : List Int
  echoBufferIndex : Nat

/-- The clip of `applyEcho`:
`if (outputSample > 32767) outputSample = 32767; else if (outputSample < -32768) ...`. -/
def clip (outputSample : Int) : Int :=
  if outputSample > 32767 then 32767
  else if outputSample < -32768 then -32768
  else outputSample

/-- The value written to `buffer[i]` by one iteration of the loop of `applyEcho`. -/
def echoOutput (echoDecayFactor : Binary32) (currentSample delayedSample : Int) : Int :=
  let outputSample :=
    toInt32 (currentSample + f32ToInt32 (f32MulSample delayedSample echoDecayFactor))
  toInt16 (clip outputSample)

/-- One iteration of the loop of `applyEcho` on the sample `currentSample = buffer[i]`:
returns the new `buffer[i]` and the updated delay line and cursor. -/
def applyEchoStep (echoDecayFactor : Binary32) (st : EchoState) (currentSample : Int) :
    Int × EchoState :=
  let delayedSample := st.echoBuffer.getD st.echoBufferIndex 0
  let out := echoOutput echoDecayFactor currentSample delayedSample
  (out,
   { echoBuffer := st.echoBuffer.set st.echoBufferIndex currentSample,
     echoBufferIndex := (st.echoBufferIndex + 1) % ECHO_DELAY_SAMPLES })

/-- The function `applyEcho(buffer, size)`: the loop `for (i = 0; i < size; i++)` over the
`size` samples of `buffer`, given as a list; returns the samples written back and the final
delay state. -/
def applyEcho (echoDecayFactor : Binary32) : EchoState → List Int → List Int × EchoState
  | st, [] => ([], st)
  | st, currentSample :: rest =>
    let r := applyEchoStep echoDecayFactor st currentSample
    let rs := applyEcho echoDecayFactor r.2 rest
    (r.1 :: rs.1, rs.2)

/-- Successive calls of `applyEcho` on a sequence of segments, the delay state being carried
from one call to the next; returns the processed segments and the final delay state. -/
def applyEchoSegments (echoDecayFactor : Binary32) :
    EchoState → List (List Int) → List (List Int) × EchoState
  | st, [] => ([], st)
  | st, seg :: segs =>
    let r := applyEcho echoDecayFactor st seg
    let rs := applyEchoSegments echoDecayFactor r.2 segs
    (r.1 :: rs.1, rs.2)

/-- The delay line at program start: `static int16_t echoBuffer[...]` is zero-initialised and
`echoBufferIndex = 0`. -/
def echoInit : EchoState :=
  { echoBuffer := List.replicate ECHO_DELAY_SAMPLES 0, echoBufferIndex := 0 }

/-- The rounding named by the specification (`round(delayed * decayFactor)`, rounding to the
nearest integer): `r` is an integer nearest to the exact product, the decay factor being given
in units of `2^-149`. Ties are left open, both neighbours qualify. -/
def IsNearestInteger (delayed : Int) (decayFactor : Binary32) (r : Int) : Prop :=
  2 * |r * Int.ofNat (2 ^ 149) - delayed * decayFactor| ≤ Int.ofNat (2 ^ 149)

/-! ## Bytes and samples of the audio buffer -/

/-- The `int16_t` read through `(int16_t*)` from two consecutive bytes (little-endian). -/
def sampleOfBytes (lo hi : Nat) : Int := toInt16 (Int.ofNat (lo + 256 * hi))

/-- The two bytes stored through `(int16_t*)` for a sample (little-endian). -/
def bytesOfSample (v : Int) : List Nat := [(v % 65536).toNat % 256, (v % 65536).toNat / 256]

/-- The samples seen through `(int16_t*)` over a run of bytes. -/
def samplesOfBytes : List Nat → List Int
  | lo :: hi :: rest => sampleOfBytes lo hi :: samplesOfBytes rest
  | _ => []

/-- The bytes of a run of samples. -/
def bytesOfSamples : List Int → List Nat
  | [] => []
  | v :: vs => bytesOfSample v ++ bytesOfSamples vs

/-- The buffer `buf` after `bytes` have been stored from byte offset `off` on. -/
def writeAt (buf : List Nat) (off : Nat) (bytes : List Nat) : List Nat :=
  buf.take off ++ bytes ++ buf.drop (off + bytes.length)

/-- The little-endian `uint32_t` field at byte offset `off` of a header image. -/
def readU32 (b : List Nat) (off : Nat) : Nat :=
  b.getD off 0 + 256 * b.getD (off + 1) 0 + 65536 * b.getD (off + 2) 0
    + 16777216 * b.getD (off + 3) 0

/-- The size `sizeof(WAV_HeaderTypeDef)`: five 32-bit fields, two 16-bit, two 32-bit, two 16-bit and two
32-bit fields, without padding. -/
def WAV_HEADER_SIZE : Nat := 44

/-! ## Storage reader -/

/-- Modelled from the spec: the storage resource behind the FatFs object `FIL`, which is not
among the sources: the bytes of the resource, the read position, and whether the handle is
open. -/
structure FIL where
  isOpen : Bool
  data : List Nat
  fptr : Nat
  deriving DecidableEq, Repr

/-- Modelled from the spec: `open(path) -> handle | NotFound` (FatFs `f_open` with `FA_READ`);
the storage maps a path to the bytes of the resource, if there is one. -/
def f_open (disk : String → Option (List Nat)) (filePath : String) : Option FIL :=
  match disk filePath with
  | none => none
  | some bytes => some { isOpen := true, data := bytes, fptr := 0 }

/-- Modelled from the spec: `readInto(handle, buffer, maxBytes) -> bytesRead` (FatFs `f_read`):
the bytes from the read position on, at most `btr` of them and fewer only at the end of the
resource; the position advances by the number of bytes returned. A handle that is not open
returns no byte. -/
def f_read (fp : FIL) (btr : Nat) : FIL × List Nat :=
  if fp.isOpen then
    let bytes := (fp.data.drop fp.fptr).take btr
    ({ fp with fptr := fp.fptr + bytes.length }, bytes)
  else (fp, [])

/-- Modelled from the spec: `seek(handle, offset)` (FatFs `f_lseek` on a handle opened for
reading: an offset beyond the end is cut to the size of the resource). -/
def f_lseek (fp : FIL) (ofs : Nat) : FIL :=
  if fp.isOpen then { fp with fptr := min ofs fp.data.length } else fp

/-- Modelled from the spec: `close(handle)` (FatFs `f_close`). -/
def f_close (fp : FIL) : FIL := { fp with isOpen := false }

/-! ## Player -/

/-- The enumeration `PLAYER_CONTROL_e`. -/
inductive PLAYER_CONTROL_e where
  | PLAYER_CONTROL_Idle
  | PLAYER_CONTROL_HalfBuffer
  | PLAYER_CONTROL_FullBuffer
  | PLAYER_CONTROL_EndOfFile
  deriving DecidableEq, Repr

open PLAYER_CONTROL_e

/-- The statics of `wav_player.c`. `echo` holds `echoBuffer` and `echoBufferIndex`. -/
structure Player where
  echoEnabled : Bool
  wavFile : FIL
  fileLength : Nat
  audioBuffer : List Nat
  audioRemainSize : Nat
  echoDecayFactor : Binary32
  echo : EchoState
  samplingFreq : Nat
  playerReadBytes : Nat
  isFinished : Bool
  playerControlSM : PLAYER_CONTROL_e

/-- The statics at program start: `echoEnabled = 1`, `echoDecayFactor = 0.8f`,
`playerControlSM = PLAYER_CONTROL_Idle`, everything else zero. -/
def playerInit : Player :=
  { echoEnabled := true,
    wavFile := { isOpen := false, data := [], fptr := 0 },
    fileLength := 0,
    audioBuffer := List.replicate AUDIO_BUFFER_SIZE 0,
    audioRemainSize := 0,
    echoDecayFactor := f32OfRat 8 10,
    echo := echoInit,
    samplingFreq := 0,
    playerReadBytes := 0,
    isFinished := false,
    playerControlSM := PLAYER_CONTROL_Idle }

/-- The function `wavPlayer_reset`. -/
def wavPlayer_reset (st : Player) : Player :=
  { st with audioRemainSize := 0, playerReadBytes := 0 }

/-- The function `checkEchoEnable`; `pin1` and `pin2` are the results of the two successive
`HAL_GPIO_ReadPin(GPIOA, GPIO_PIN_2)`. -/
def checkEchoEnable (pin1 pin2 : Bool) (st : Player) : Player :=
  if pin1 then { st with echoEnabled := true }
  else if !pin2 then { st with echoEnabled := false }
  else st

/-- The function `updateAttenuationFactor`; `adc` is `some adcValue` when `HAL_ADC_PollForConversion`
returns `HAL_OK`, and `none` otherwise. The `uint32_t` reading is converted to `float` and
divided by `4095.0f`. -/
def updateAttenuationFactor (adc : Option Nat) (st : Player) : Player :=
  match adc with
  | some adcValue =>
    { st with echoDecayFactor :=
        Int.ofNat (roundBinary32 (roundBinary32 (adcValue * 2 ^ 149) 1) 4095) }
  | none => st

/-- The call `applyEcho((int16_t*)&audioBuffer[off], size)`: the `size` samples stored from
byte offset `off` on are processed in place. -/
def applyEchoAt (st : Player) (off size : Nat) : Player :=
  let r := applyEcho st.echoDecayFactor st.echo
    (samplesOfBytes ((st.audioBuffer.drop off).take (2 * size)))
  { st with audioBuffer := writeAt st.audioBuffer off (bytesOfSamples r.1), echo := r.2 }

/-- The function `wavPlayer_fileSelect`; `wavHeader0` is the content of the local `wavHeader` before the
read (44 bytes of uninitialised stack). Returns the `bool` result and the new statics. -/
def wavPlayer_fileSelect (disk : String → Option (List Nat)) (wavHeader0 : List Nat)
    (st : Player) (filePath : String) : Bool × Player :=
  match f_open disk filePath with
  | none => (false, { st with wavFile := f_close st.wavFile })
  | some fp =>
    let rd := f_read fp WAV_HEADER_SIZE
    let wavHeader := writeAt wavHeader0 0 rd.2
    (true, { st with wavFile := rd.1,
                     fileLength := readU32 wavHeader 4,
                     samplingFreq := readU32 wavHeader 24 })

/-- The function `wavPlayer_play`. The calls `audioI2S_init(samplingFreq)` and `audioI2S_play(audioBuffer,
AUDIO_BUFFER_SIZE)` start the output transport on `audioBuffer` and change none of the
statics. -/
def wavPlayer_play (pin1 pin2 : Bool) (adc : Option Nat) (st : Player) : Player :=
  let st1 := updateAttenuationFactor adc (checkEchoEnable pin1 pin2 st)
  let rd := f_read (f_lseek st1.wavFile 0) AUDIO_BUFFER_SIZE
  let st2 : Player :=
    { st1 with isFinished := false,
               wavFile := rd.1,
               audioBuffer := writeAt st1.audioBuffer 0 rd.2,
               playerReadBytes := rd.2.length,
               audioRemainSize := toUInt32 (Int.ofNat st1.fileLength - Int.ofNat rd.2.length) }
  if st2.echoEnabled then applyEchoAt st2 0 (AUDIO_BUFFER_SIZE / 2) else st2

/-- The body shared by the cases `PLAYER_CONTROL_HalfBuffer` (`off = 0`) and
`PLAYER_CONTROL_FullBuffer` (`off = AUDIO_BUFFER_SIZE/2`) of `wavPlayer_process`, which
differ only in the half of `audioBuffer` they address. -/
def refillHalf (st : Player) (off : Nat) : Player :=
  let rd := f_read st.wavFile (AUDIO_BUFFER_SIZE / 2)
  let st1 : Player :=
    { st with playerControlSM := PLAYER_CONTROL_Idle,
              wavFile := rd.1,
              audioBuffer := writeAt st.audioBuffer off rd.2,
              playerReadBytes := rd.2.length }
  if st1.audioRemainSize > AUDIO_BUFFER_SIZE / 2 then
    let st2 : Player :=
      { st1 with audioRemainSize :=
          toUInt32 (Int.ofNat st1.audioRemainSize - Int.ofNat st1.playerReadBytes) }
    if st2.echoEnabled then applyEchoAt st2 off (AUDIO_BUFFER_SIZE / 4) else st2
  else
    { st1 with audioRemainSize := 0, playerControlSM := PLAYER_CONTROL_EndOfFile }

/-- The function `wavPlayer_process`. -/
def wavPlayer_process (pin1 pin2 : Bool) (st : Player) : Player :=
  let st1 := checkEchoEnable pin1 pin2 st
  match st1.playerControlSM with
  | PLAYER_CONTROL_Idle => st1
  | PLAYER_CONTROL_HalfBuffer => refillHalf st1 0
  | PLAYER_CONTROL_FullBuffer => refillHalf st1 (AUDIO_BUFFER_SIZE / 2)
  | PLAYER_CONTROL_EndOfFile =>
    { wavPlayer_reset { st1 with wavFile := f_close st1.wavFile } with
      isFinished := true, playerControlSM := PLAYER_CONTROL_Idle }

/-- The function `wavPlayer_stop` (the output transport is stopped and the LEDs are blinked, which changes
none of the statics). -/
def wavPlayer_stop (st : Player) : Player :=
  { st with wavFile := f_close st.wavFile, isFinished := true }

/-- The function `wavPlayer_isFinished`. -/
def wavPlayer_isFinished (st : Player) : Bool := st.isFinished

/-- The callback `audioI2S_halfTransfer_Callback`. -/
def audioI2S_halfTransfer_Callback (st : Player) : Player :=
  { st with playerControlSM := PLAYER_CONTROL_HalfBuffer }

/-- The callback `audioI2S_fullTransfer_Callback`. -/
def audioI2S_fullTransfer_Callback (st : Player) : Player :=
  { st with playerControlSM := PLAYER_CONTROL_FullBuffer }



/-! ## PLL table lookup of `audioI2S.c` -/

/-- The table `I2SFreq` of supported sampling frequencies. -/
def I2SFreq : List Nat := [8000, 11025, 16000, 22050, 32000, 44100, 48000, 96000]

/-- The table `I2SPLLN` of PLL multipliers, indexed like `I2SFreq`. -/
def I2SPLLN : List Nat := [256, 429, 213, 429, 426, 271, 258, 344]

/-- The table `I2SPLLR` of PLL dividers, indexed like `I2SFreq`. -/
def I2SPLLR : List Nat := [5, 4, 4, 4, 4, 6, 3, 1]

/-- The search loop of `audioI2S_pllClockConfig`, from `index` on with `n` iterations left:
`if (I2SFreq[index] == audioFreq) freqindex = index;`. -/
def freqIndexLoop (audioFreq : Nat) : Nat → Nat → Nat → Nat
  | 0, _, freqindex => freqindex
  | n + 1, index, freqindex =>
    freqIndexLoop audioFreq n (index + 1)
      (if I2SFreq.getD index 0 = audioFreq then index else freqindex)

/-- The function `audioI2S_pllClockConfig`: the values written to `PLLI2SN` and `PLLI2SR`.
`freqindex` starts at `0xFF`, and the table values are used when `(freqindex & 0x7) == 0`. -/
def audioI2S_pllClockConfig (audioFreq : Nat) : Nat × Nat :=
  let freqindex := freqIndexLoop audioFreq 8 0 255
  if freqindex &&& 7 = 0 then (I2SPLLN.getD freqindex 0, I2SPLLR.getD freqindex 0)
  else (258, 3)

/-! ## Sessions -/

/-- The two completion signals of the output transport. -/
inductive Signal where
  | halfTransfer
  | fullTransfer
  deriving DecidableEq, Repr

/-- Delivery of a completion signal: the callback of the transport shim. -/
def deliver : Signal → Player → Player
  | Signal.halfTransfer, st => audioI2S_halfTransfer_Callback st
  | Signal.fullTransfer, st => audioI2S_fullTransfer_Callback st

/-- One refill: a completion signal followed by the poll of `wavPlayer_process` that serves
it; `pin1`, `pin2` are the readings of the echo switch during the poll. -/
def refillStep (st : Player) (sig : Signal) (pin1 pin2 : Bool) : Player :=
  wavPlayer_process pin1 pin2 (deliver sig st)

/-- A session after `wavPlayer_play`: refills in the order of the completion signals, up to
and including the first refill that leaves the state machine in `PLAYER_CONTROL_EndOfFile`. -/
def session : Player → List (Signal × Bool × Bool) → Player
  | st, [] => st
  | st, e :: es =>
    let st1 := refillStep st e.1 e.2.1 e.2.2
    if st1.playerControlSM = PLAYER_CONTROL_EndOfFile then st1 else session st1 es

/-- Number of refills performed by `session`. -/
def sessionRefills : Player → List (Signal × Bool × Bool) → Nat
  | _, [] => 0
  | st, e :: es =>
    let st1 := refillStep st e.1 e.2.1 e.2.2
    if st1.playerControlSM = PLAYER_CONTROL_EndOfFile then 1 else 1 + sessionRefills st1 es

/-- Sum of the byte counts returned by the reads of the refills performed by `session`. -/
def sessionBytesRead : Player → List (Signal × Bool × Bool) → Nat
  | _, [] => 0
  | st, e :: es =>
    let st1 := refillStep st e.1 e.2.1 e.2.2
    if st1.playerControlSM = PLAYER_CONTROL_EndOfFile then st1.playerReadBytes
    else st1.playerReadBytes + sessionBytesRead st1 es

/-- An event after playback start: a completion signal delivered by the output transport, or
a poll of `wavPlayer_process` from the main loop, with the readings of the echo switch. -/
inductive Event where
  | signal (sig : Signal)
  | poll (pin1 pin2 : Bool)

/-- The effect of one event on the statics. -/
def step : Player → Event → Player
  | st, Event.signal sig => deliver sig st
  | st, Event.poll pin1 pin2 => wavPlayer_process pin1 pin2 st

/-- The effect of a sequence of events, in order. -/
def run (st : Player) (events : List Event) : Player := events.foldl step st

/-! ## Small sessions used to instantiate the statements -/

/-- The four bytes of a `uint32_t`, little-endian. -/
def u32Bytes (n : Nat) : List Nat :=
  [n % 256, n / 256 % 256, n / 65536 % 256, n / 16777216 % 256]

/-- A canonical 16-bit stereo PCM file at 8000 Hz: the 44-byte header (`RIFF`, size of the file
minus 8, `WAVE`, `fmt `, 16, format 1, 2 channels, 8000 Hz, 32000 bytes per second, block
alignment 4, 16 bits, `data`, size of the payload) followed by the payload. -/
def wavImage (payload : List Nat) : List Nat :=
  [82, 73, 70, 70] ++ u32Bytes (36 + payload.length) ++ [87, 65, 86, 69]
    ++ [102, 109, 116, 32] ++ u32Bytes 16 ++ [1, 0] ++ [2, 0] ++ u32Bytes 8000
    ++ u32Bytes 32000 ++ [4, 0] ++ [16, 0] ++ [100, 97, 116, 97] ++ u32Bytes payload.length
    ++ payload

/-- A storage holding one resource under the path `a.wav` and nothing else. -/
def diskWith (image : List Nat) : String → Option (List Nat) :=
  fun path => if path = "a.wav" then some image else none

/-- The player after `wavPlayer_fileSelect("a.wav")` from program start, on a storage holding
`image`. -/
def selected (image : List Nat) : Player :=
  (wavPlayer_fileSelect (diskWith image) (List.replicate WAV_HEADER_SIZE 0) playerInit
    "a.wav").2

/-- The player after the following `wavPlayer_play()`, with the echo switch off and no ADC
reading. -/
def playing (image : List Nat) : Player := wavPlayer_play false false none (selected image)

/-- A file of 1544 bytes: payload of 1500 bytes, all `7`; its header declares
`FileSize = 1536` and `SubChunk2Size = 1500`. -/
def demoFile : List Nat := wavImage (List.replicate 1500 7)

/-- A file of 1644 bytes: payload of 1600 bytes; `FileSize = 1636`. -/
def demoFileLong : List Nat := wavImage (List.replicate 1600 7)

/-- A file of 1000 bytes: payload of 956 bytes; `FileSize = 992`. -/
def demoFileShort : List Nat := wavImage (List.replicate 956 7)

/-- A player with the first half pending on the 1644-byte file (counter 612), decay factor
`0.5` and a delay line holding `100` everywhere, cursor 0. -/
def demoEchoPending : Player :=
  { audioI2S_halfTransfer_Callback (playing demoFileLong) with
    echoDecayFactor := f32OfRat 1 2,
    echo := { echoBuffer := List.replicate ECHO_DELAY_SAMPLES 100, echoBufferIndex := 0 } }

/-- A stream of 48001 samples cut into three segments: `4`, then 47999 zeros, then `10`. -/
def demoStream : List (List Int) := [[4], List.replicate 47999 0, [10]]

/-- The player after `wavPlayer_fileSelect("a.wav")` on `demoFile`. -/
def demoSelected : Player := selected demoFile

/-- The player after `wavPlayer_play()` on `demoFile`. -/
def demoPlaying : Player := playing demoFile

/-! ## Binary32 rounding -/

set_option maxRecDepth 100000

theorem sigShiftAux_le (fuel : Nat) : ∀ t j : Nat, t < 2 ^ (24 + j) → sigShiftAux fuel t ≤ j := by
  induction fuel with
  | zero => intro t j _; simp [sigShiftAux]
  | succ f ih =>
    intro t j h
    unfold sigShiftAux
    split_ifs with h24
    · exact Nat.zero_le _
    · cases j with
      | zero => exact absurd h h24
      | succ j =>
        have h2 : t / 2 < 2 ^ (24 + j) := by
          apply Nat.div_lt_of_lt_mul
          have : 2 ^ (24 + (j + 1)) = 2 * 2 ^ (24 + j) := by rw [← Nat.add_assoc, Nat.pow_succ]; ring
          omega
        have := ih (t / 2) j h2
        omega

theorem sigShift_le (t j : Nat) (h : t < 2 ^ (24 + j)) : sigShift t ≤ j :=
  sigShiftAux_le t t j h

/-- The bound on the number of halvings is never reached: the digits kept by `sigShift` fit a
24-bit significand. -/
theorem sigShiftAux_fits (fuel : Nat) : ∀ t : Nat, t ≤ fuel → t / 2 ^ sigShiftAux fuel t < 2 ^ 24 := by
  induction fuel with
  | zero => intro t h; simp [sigShiftAux]; omega
  | succ f ih =>
    intro t h
    unfold sigShiftAux
    split_ifs with h24
    · simpa using h24
    · have ht : t / 2 ≤ f := by
        have : 0 < t := by
          rcases Nat.eq_zero_or_pos t with h0 | h0
          · subst h0; simp at h24
          · exact h0
        omega
      have := ih (t / 2) ht
      rw [Nat.pow_succ, Nat.mul_comm, ← Nat.div_div_eq_div_mul]
      exact this

theorem roundBinary32_one_le (n M : Nat) (h : n ≤ M) (hd : 2 ^ sigShift n ∣ M) :
    roundBinary32 n 1 ≤ M := by
  unfold roundBinary32
  simp only [Nat.div_one, Nat.one_mul]
  have hP : 0 < 2 ^ sigShift n := pow_pos (by norm_num) _
  obtain ⟨c, hc⟩ := hd
  have hq : n / 2 ^ sigShift n * 2 ^ sigShift n ≤ n := Nat.div_mul_le_self _ _
  split_ifs with hcond
  · have hr : 0 < n % 2 ^ sigShift n := by
      rcases hcond with h1 | ⟨h1, _⟩ <;> omega
    have hne : n ≠ M := by
      intro e
      have h0 : M % 2 ^ sigShift n = 0 := by
        rw [hc]; exact Nat.mul_mod_right _ _
      have h1 : n % 2 ^ sigShift n = M % 2 ^ sigShift n := congrArg (· % 2 ^ sigShift n) e
      omega
    have hlt : n < 2 ^ sigShift n * c := by omega
    have hqc : n / 2 ^ sigShift n < c := Nat.div_lt_of_lt_mul hlt
    calc (n / 2 ^ sigShift n + 1) * 2 ^ sigShift n ≤ c * 2 ^ sigShift n :=
          Nat.mul_le_mul_right _ hqc
      _ = M := by rw [hc, Nat.mul_comm]
  · omega

theorem roundBinary32_one_exact (n : Nat) (hd : 2 ^ sigShift n ∣ n) : roundBinary32 n 1 = n := by
  unfold roundBinary32
  simp only [Nat.div_one, Nat.one_mul]
  have hP : 0 < 2 ^ sigShift n := pow_pos (by norm_num) _
  have hr : n % 2 ^ sigShift n = 0 := Nat.mod_eq_zero_of_dvd hd
  rw [hr]
  have : ¬ (2 ^ sigShift n < 2 * 0 ∨ (2 * 0 = 2 ^ sigShift n ∧ n / 2 ^ sigShift n % 2 = 1)) := by
    omega
  rw [if_neg this]
  exact Nat.div_mul_cancel hd

/-- The result of `roundBinary32` is a nearest multiple of the last kept digit: it differs
from the exact value by at most half a unit of that digit. -/
theorem roundBinary32_one_nearest (n : Nat) :
    2 ^ sigShift n ∣ roundBinary32 n 1 ∧
    2 * roundBinary32 n 1 ≤ 2 * n + 2 ^ sigShift n ∧
    2 * n ≤ 2 * roundBinary32 n 1 + 2 ^ sigShift n := by
  unfold roundBinary32
  simp only [Nat.div_one, Nat.one_mul]
  have hP : 0 < 2 ^ sigShift n := pow_pos (by norm_num) _
  have hdm := Nat.div_add_mod n (2 ^ sigShift n)
  have hr : n % 2 ^ sigShift n < 2 ^ sigShift n := Nat.mod_lt _ hP
  generalize 2 ^ sigShift n = P at *
  generalize n / P = q at *
  generalize n % P = r at *
  split_ifs with hcond
  · refine ⟨Dvd.intro_left _ rfl, ?_, ?_⟩
    · have : (q + 1) * P = P * q + P := by ring
      rcases hcond with h1 | ⟨h1, _⟩ <;> omega
    · have : (q + 1) * P = P * q + P := by ring
      omega
  · refine ⟨Dvd.intro_left _ rfl, ?_, ?_⟩
    · have : q * P = P * q := Nat.mul_comm _ _
      omega
    · have : q * P = P * q := Nat.mul_comm _ _
      have h2 : ¬ (P < 2 * r) := fun h => hcond (Or.inl h)
      omega

theorem roundBinary32_zero : roundBinary32 0 1 = 0 := by
  simp [roundBinary32]

theorem f32MulSample_zero (delayedSample : Int) : f32MulSample delayedSample 0 = 0 := by
  simp [f32MulSample, roundBinary32_zero]

theorem f32MulSample_zero_left (d : Binary32) : f32MulSample 0 d = 0 := by
  simp [f32MulSample, roundBinary32_zero]

theorem f32ToInt32_zero : f32ToInt32 0 = 0 := by
  simp [f32ToInt32]

/-- Truncation of plus or minus a magnitude. -/
theorem f32ToInt32_ofNat (r : Nat) : f32ToInt32 (Int.ofNat r) = Int.ofNat (r / 2 ^ 149) := by
  have h : ¬ ((r : Int) < 0) := by omega
  simp [f32ToInt32, h]

theorem f32ToInt32_neg_ofNat (r : Nat) :
    f32ToInt32 (-Int.ofNat r) = -Int.ofNat (r / 2 ^ 149) := by
  unfold f32ToInt32
  have e : (-Int.ofNat r).natAbs = r := by simp
  rw [e]
  split_ifs with h
  · rfl
  · have h0 : r = 0 := by
      have hr : (0 : Int) ≤ Int.ofNat r := Int.ofNat_nonneg r
      have h1 : ¬ ((-Int.ofNat r : Int) < 0) := h
      have h2 : Int.ofNat r = 0 := by omega
      exact Int.ofNat_eq_zero.mp h2
    subst h0
    simp

/-- With a decay factor in `[0.0, 1.0]` the scaled delayed sample stays within the magnitude
of an `int16_t`. -/
theorem scaled_bound (y d : Int) (hy : isInt16 y) (hd0 : 0 ≤ d) (hd1 : d ≤ f32One) :
    -32768 ≤ f32ToInt32 (f32MulSample y d) ∧ f32ToInt32 (f32MulSample y d) ≤ 32768 := by
  obtain ⟨hy1, hy2⟩ := hy
  have hn : (y * d).natAbs ≤ 2 ^ 164 := by
    rw [Int.natAbs_mul]
    have h1 : y.natAbs ≤ 2 ^ 15 := by norm_num; omega
    have h2 : d.natAbs ≤ 2 ^ 149 := by
      have : d ≤ ((2 ^ 149 : Nat) : Int) := hd1
      omega
    calc y.natAbs * d.natAbs ≤ 2 ^ 15 * 2 ^ 149 := Nat.mul_le_mul h1 h2
      _ = 2 ^ 164 := by rw [← Nat.pow_add]
  have hs : sigShift (y * d).natAbs ≤ 141 := by
    apply sigShift_le
    calc (y * d).natAbs ≤ 2 ^ 164 := hn
      _ < 2 ^ (24 + 141) := Nat.pow_lt_pow_right (by decide) (by decide)
  have hr : roundBinary32 (y * d).natAbs 1 ≤ 2 ^ 164 :=
    roundBinary32_one_le _ _ hn (Nat.pow_dvd_pow 2 (by omega))
  have hq : roundBinary32 (y * d).natAbs 1 / 2 ^ 149 ≤ 32768 := by
    have : roundBinary32 (y * d).natAbs 1 / 2 ^ 149 ≤ 2 ^ 164 / 2 ^ 149 :=
      Nat.div_le_div_right hr
    have e : 2 ^ 164 / 2 ^ 149 = 32768 := by
      rw [Nat.pow_div (by decide) (by decide)]
    omega
  unfold f32MulSample
  simp only
  split_ifs with hneg
  · rw [f32ToInt32_neg_ofNat]
    simp only [Int.ofNat_eq_coe]
    omega
  · rw [f32ToInt32_ofNat]
    simp only [Int.ofNat_eq_coe]
    omega

/-- The scaled delayed sample in plain arithmetic (in units of `2^-149`): the value added by
`applyEcho` points toward zero from the exact product `y * d`, up to the binary32 rounding of
the product (at most `2^140` units, i.e. `2^-9`), is less than one away from it, has the sign
of `y`, and is exactly the product with its fraction discarded whenever the product has at
most 24 significant binary digits. -/
theorem scaled_spec (y d : Int) (hy : isInt16 y) (hd0 : 0 ≤ d) (hd1 : d ≤ f32One) :
    (f32ToInt32 (f32MulSample y d)).natAbs * 2 ^ 149 ≤ (y * d).natAbs + 2 ^ 140 ∧
    (y * d).natAbs < (f32ToInt32 (f32MulSample y d)).natAbs * 2 ^ 149 + 2 ^ 149 + 2 ^ 140 ∧
    0 ≤ f32ToInt32 (f32MulSample y d) * y ∧
    (∀ m k : Nat, m < 2 ^ 24 → (y * d).natAbs = m * 2 ^ k →
      (f32ToInt32 (f32MulSample y d)).natAbs = (y * d).natAbs / 2 ^ 149) := by
  obtain ⟨hy1, hy2⟩ := hy
  have hn : (y * d).natAbs ≤ 2 ^ 164 := by
    rw [Int.natAbs_mul]
    have h1 : y.natAbs ≤ 2 ^ 15 := by norm_num; omega
    have h2 : d.natAbs ≤ 2 ^ 149 := by
      have : d ≤ ((2 ^ 149 : Nat) : Int) := hd1
      omega
    calc y.natAbs * d.natAbs ≤ 2 ^ 15 * 2 ^ 149 := Nat.mul_le_mul h1 h2
      _ = 2 ^ 164 := by rw [← Nat.pow_add]
  have hs : sigShift (y * d).natAbs ≤ 141 := by
    apply sigShift_le
    calc (y * d).natAbs ≤ 2 ^ 164 := hn
      _ < 2 ^ (24 + 141) := Nat.pow_lt_pow_right (by decide) (by decide)
  obtain ⟨_, hn1, hn2⟩ := roundBinary32_one_nearest (y * d).natAbs
  have hp : 2 ^ sigShift (y * d).natAbs ≤ 2 ^ 141 := Nat.pow_le_pow_right (by decide) hs
  have h141 : (2 : Nat) ^ 141 = 2 * 2 ^ 140 := by rw [← Nat.pow_succ']
  have hq1 := Nat.div_mul_le_self (roundBinary32 (y * d).natAbs 1) (2 ^ 149)
  have hq2 := Nat.lt_div_mul_add (a := roundBinary32 (y * d).natAbs 1) (b := 2 ^ 149)
    (pow_pos (by norm_num) _)
  have hval : f32ToInt32 (f32MulSample y d)
      = (if y * d < 0 then -Int.ofNat (roundBinary32 (y * d).natAbs 1 / 2 ^ 149)
         else Int.ofNat (roundBinary32 (y * d).natAbs 1 / 2 ^ 149)) := by
    unfold f32MulSample
    simp only
    split_ifs with hneg
    · exact f32ToInt32_neg_ofNat _
    · exact f32ToInt32_ofNat _
  have habs : (f32ToInt32 (f32MulSample y d)).natAbs
      = roundBinary32 (y * d).natAbs 1 / 2 ^ 149 := by
    rw [hval]
    split_ifs
    · rw [Int.natAbs_neg]; rfl
    · rfl
  refine ⟨?_, ?_, ?_, ?_⟩
  · rw [habs]; omega
  · rw [habs]; omega
  · rw [hval]
    split_ifs with hneg
    · have hyneg : y < 0 := by
        by_contra hc
        have : 0 ≤ y * d := Int.mul_nonneg (by omega) hd0
        omega
      have : Int.ofNat (roundBinary32 (y * d).natAbs 1 / 2 ^ 149) * (-y) ≥ 0 :=
        Int.mul_nonneg (Int.ofNat_nonneg _) (by omega)
      rw [Int.neg_mul, ← Int.mul_neg]
      exact this
    · by_cases hy0 : 0 ≤ y
      · exact Int.mul_nonneg (Int.ofNat_nonneg _) hy0
      · have hle : y * d ≤ 0 := Int.mul_nonpos_of_nonpos_of_nonneg (by omega) hd0
        have hz : y * d = 0 := by omega
        rw [hz]
        simp [roundBinary32_zero]
  · intro m k hm hmk
    rw [habs]
    have hlt : (y * d).natAbs < 2 ^ (24 + k) := by
      rw [hmk, Nat.pow_add]
      exact Nat.mul_lt_mul_of_pos_right hm (pow_pos (by norm_num) _)
    have hsk : sigShift (y * d).natAbs ≤ k := sigShift_le _ _ hlt
    have hdvd : 2 ^ sigShift (y * d).natAbs ∣ (y * d).natAbs := by
      have h := Dvd.dvd.mul_left (Nat.pow_dvd_pow 2 hsk) m
      rwa [← hmk] at h
    rw [roundBinary32_one_exact _ hdvd]

theorem toInt32_of_small (v : Int) (h1 : -2147483648 ≤ v) (h2 : v ≤ 2147483647) :
    toInt32 v = v := by
  unfold toInt32; omega

theorem toInt16_of_isInt16 (v : Int) (h : isInt16 v) : toInt16 v = v := by
  unfold isInt16 at h
  unfold toInt16; omega

theorem clip_isInt16 (v : Int) : isInt16 (clip v) := by
  unfold clip isInt16
  split_ifs <;> omega

theorem toInt16_isInt16 (v : Int) : isInt16 (toInt16 v) := by
  unfold toInt16 isInt16; omega

/-- Within the preconditions of the echo processor, no conversion of `applyEcho` wraps: the
output is the clip of the exact sum. -/
theorem echoOutput_eq (d x y : Int) (hx : isInt16 x) (hy : isInt16 y)
    (hd0 : 0 ≤ d) (hd1 : d ≤ f32One) :
    echoOutput d x y = clip (x + f32ToInt32 (f32MulSample y d)) := by
  have hb := scaled_bound y d hy hd0 hd1
  unfold isInt16 at hx
  unfold echoOutput
  simp only
  rw [toInt32_of_small _ (by omega) (by omega), toInt16_of_isInt16 _ (clip_isInt16 _)]

/-! ## The loop of `applyEcho` -/

theorem applyEcho_nil (d : Binary32) (st : EchoState) : applyEcho d st [] = ([], st) := rfl

theorem applyEcho_cons (d : Binary32) (st : EchoState) (x : Int) (xs : List Int) :
    applyEcho d st (x :: xs) =
      ((applyEchoStep d st x).1 :: (applyEcho d (applyEchoStep d st x).2 xs).1,
       (applyEcho d (applyEchoStep d st x).2 xs).2) := rfl

theorem applyEcho_length (d : Binary32) :
    ∀ (xs : List Int) (st : EchoState), (applyEcho d st xs).1.length = xs.length := by
  intro xs
  induction xs with
  | nil => intro st; rfl
  | cons x xs ih => intro st; rw [applyEcho_cons]; simp [ih]

/-- The delay line keeps its size. -/
theorem applyEcho_echoBuffer_length (d : Binary32) :
    ∀ (xs : List Int) (st : EchoState),
      (applyEcho d st xs).2.echoBuffer.length = st.echoBuffer.length := by
  intro xs
  induction xs with
  | nil => intro st; rfl
  | cons x xs ih => intro st; rw [applyEcho_cons]; simp [ih, applyEchoStep]

theorem applyEcho_append (d : Binary32) :
    ∀ (xs ys : List Int) (st : EchoState),
      applyEcho d st (xs ++ ys) =
        ((applyEcho d st xs).1 ++ (applyEcho d (applyEcho d st xs).2 ys).1,
         (applyEcho d (applyEcho d st xs).2 ys).2) := by
  intro xs
  induction xs with
  | nil => intro ys st; simp [applyEcho_nil]
  | cons x xs ih =>
    intro ys st
    rw [List.cons_append, applyEcho_cons, ih, applyEcho_cons]
    simp

/-- Each output sample is computed from the input sample and the delay-line entry under the
cursor in the state reached after the preceding samples. -/
theorem applyEcho_getD (d : Binary32) :
    ∀ (xs : List Int) (st : EchoState) (i : Nat), i < xs.length →
      (applyEcho d st xs).1.getD i 0 =
        echoOutput d (xs.getD i 0)
          ((applyEcho d st (xs.take i)).2.echoBuffer.getD
            (applyEcho d st (xs.take i)).2.echoBufferIndex 0) := by
  intro xs
  induction xs with
  | nil => intro st i h; simp at h
  | cons x xs ih =>
    intro st i h
    cases i with
    | zero => simp [applyEcho_cons, applyEcho_nil, applyEchoStep]
    | succ i =>
      have hi : i < xs.length := by simpa using h
      rw [applyEcho_cons, List.take_succ_cons, applyEcho_cons]
      simpa using ih (applyEchoStep d st x).2 i hi

theorem applyEcho_cursor (d : Binary32) :
    ∀ (xs : List Int) (st : EchoState), st.echoBufferIndex < ECHO_DELAY_SAMPLES →
      (applyEcho d st xs).2.echoBufferIndex
        = (st.echoBufferIndex + xs.length) % ECHO_DELAY_SAMPLES := by
  intro xs
  induction xs with
  | nil => intro st h; simp [applyEcho_nil, Nat.mod_eq_of_lt h]
  | cons x xs ih =>
    intro st h
    have hpos : 0 < ECHO_DELAY_SAMPLES := by decide
    rw [applyEcho_cons]
    simp only
    rw [ih _ (by simp [applyEchoStep]; exact Nat.mod_lt _ hpos)]
    simp only [applyEchoStep, List.length_cons]
    rw [Nat.mod_add_mod]
    congr 1
    omega

theorem getD_set_int (l : List Int) (i j : Nat) (v : Int) (h : i < l.length) :
    (l.set i v).getD j 0 = if j = i then v else l.getD j 0 := by
  by_cases hji : j = i
  · subst hji
    simp [h]
  · have : i ≠ j := fun e => hji e.symm
    simp [hji, this]

/-- The delay line after a call: the entry `k` places ahead of the cursor is the entry that
was there before the call if fewer than `ECHO_DELAY_SAMPLES - k` samples were processed, and
otherwise the input sample processed `ECHO_DELAY_SAMPLES - k` samples before the end. -/
theorem applyEcho_delay (d : Binary32) :
    ∀ (xs : List Int) (st : EchoState), st.echoBufferIndex < ECHO_DELAY_SAMPLES →
      st.echoBuffer.length = ECHO_DELAY_SAMPLES →
      ∀ k, k < ECHO_DELAY_SAMPLES →
        (applyEcho d st xs).2.echoBuffer.getD
            ((st.echoBufferIndex + xs.length + k) % ECHO_DELAY_SAMPLES) 0
          = if xs.length + k < ECHO_DELAY_SAMPLES
            then st.echoBuffer.getD ((st.echoBufferIndex + xs.length + k) % ECHO_DELAY_SAMPLES) 0
            else xs.getD (xs.length + k - ECHO_DELAY_SAMPLES) 0 := by
  intro xs
  induction xs with
  | nil =>
    intro st h hlen k hk
    simp [applyEcho_nil, hk]
  | cons x xs ih =>
    intro st h hlen k hk
    have hpos : 0 < ECHO_DELAY_SAMPLES := by decide
    have hc1 : (applyEchoStep d st x).2.echoBufferIndex < ECHO_DELAY_SAMPLES := by
      simp [applyEchoStep]; exact Nat.mod_lt _ hpos
    have hl1 : (applyEchoStep d st x).2.echoBuffer.length = ECHO_DELAY_SAMPLES := by
      simp [applyEchoStep, hlen]
    have hidx : ((applyEchoStep d st x).2.echoBufferIndex + xs.length + k) % ECHO_DELAY_SAMPLES
        = (st.echoBufferIndex + (x :: xs).length + k) % ECHO_DELAY_SAMPLES := by
      simp only [applyEchoStep, List.length_cons]
      rw [Nat.add_assoc, Nat.mod_add_mod]
      congr 1
      omega
    have hset : ∀ j, (applyEchoStep d st x).2.echoBuffer.getD j 0
        = if j = st.echoBufferIndex then x else st.echoBuffer.getD j 0 := by
      intro j
      simp only [applyEchoStep]
      exact getD_set_int _ _ _ _ (by omega)
    have := ih (applyEchoStep d st x).2 hc1 hl1 k hk
    rw [hidx] at this
    rw [applyEcho_cons]
    simp only
    rw [this]
    simp only [List.length_cons]
    by_cases h1 : xs.length + 1 + k < ECHO_DELAY_SAMPLES
    · have h2 : xs.length + k < ECHO_DELAY_SAMPLES := by omega
      rw [if_pos h1, if_pos h2, hset]
      have hne : (st.echoBufferIndex + (xs.length + 1) + k) % ECHO_DELAY_SAMPLES
          ≠ st.echoBufferIndex := by
        unfold ECHO_DELAY_SAMPLES at *
        omega
      rw [if_neg hne]
    · rw [if_neg h1]
      by_cases h2 : xs.length + k < ECHO_DELAY_SAMPLES
      · rw [if_pos h2, hset]
        have h3 : xs.length + 1 + k = ECHO_DELAY_SAMPLES := by omega
        have he : (st.echoBufferIndex + (xs.length + 1) + k) % ECHO_DELAY_SAMPLES
            = st.echoBufferIndex := by
          unfold ECHO_DELAY_SAMPLES at *
          omega
        rw [if_pos he, h3]
        simp
      · rw [if_neg h2]
        have h3 : xs.length + 1 + k - ECHO_DELAY_SAMPLES
            = (xs.length + k - ECHO_DELAY_SAMPLES) + 1 := by omega
        rw [h3]
        simp

theorem getD_isInt16 (xs : List Int) (h : ∀ x ∈ xs, isInt16 x) (j : Nat) :
    isInt16 (xs.getD j 0) := by
  by_cases hj : j < xs.length
  · rw [List.getD_eq_getElem _ _ hj]
    exact h _ (List.getElem_mem hj)
  · rw [List.getD_eq_default _ _ (by omega)]
    unfold isInt16; omega

theorem getD_take_of_lt (xs : List Int) (i j : Nat) (h : j < i) :
    (xs.take i).getD j 0 = xs.getD j 0 := by
  simp [List.getElem?_take_of_lt h]

/-- The state in which sample `i` of a call is processed: the cursor has advanced by `i`, and
the entry under it is the one present before the call while `i < ECHO_DELAY_SAMPLES`, and
the original input sample `i - ECHO_DELAY_SAMPLES` of this call afterwards. -/
theorem applyEcho_prefix (d : Binary32) (xs : List Int) (st : EchoState)
    (h : st.echoBufferIndex < ECHO_DELAY_SAMPLES)
    (hlen : st.echoBuffer.length = ECHO_DELAY_SAMPLES) (i : Nat) (hi : i ≤ xs.length) :
    (applyEcho d st (xs.take i)).2.echoBufferIndex
        = (st.echoBufferIndex + i) % ECHO_DELAY_SAMPLES ∧
    (applyEcho d st (xs.take i)).2.echoBuffer.getD
        (applyEcho d st (xs.take i)).2.echoBufferIndex 0
        = if i < ECHO_DELAY_SAMPLES
          then st.echoBuffer.getD ((st.echoBufferIndex + i) % ECHO_DELAY_SAMPLES) 0
          else xs.getD (i - ECHO_DELAY_SAMPLES) 0 := by
  have hl : (xs.take i).length = i := by simp [hi]
  have hc := applyEcho_cursor d (xs.take i) st h
  rw [hl] at hc
  refine ⟨hc, ?_⟩
  have hk := applyEcho_delay d (xs.take i) st h hlen 0 (by decide)
  rw [hl] at hk
  simp only [Nat.add_zero] at hk
  rw [hc, hk]
  by_cases h1 : i < ECHO_DELAY_SAMPLES
  · rw [if_pos h1, if_pos h1]
  · rw [if_neg h1, if_neg h1]
    apply getD_take_of_lt
    unfold ECHO_DELAY_SAMPLES at *
    omega

/-- Closed form of one output sample of a call of `applyEcho`. -/
theorem applyEcho_sample (d : Binary32) (st : EchoState) (buffer : List Int)
    (hd0 : 0 ≤ d) (hd1 : d ≤ f32One) (hc : st.echoBufferIndex < ECHO_DELAY_SAMPLES)
    (hlen : st.echoBuffer.length = ECHO_DELAY_SAMPLES)
    (hD : ∀ y ∈ st.echoBuffer, isInt16 y)
    (hbuf : ∀ x ∈ buffer, isInt16 x) (i : Nat) (hi : i < buffer.length) :
    (applyEcho d st buffer).1.getD i 0
      = clip (buffer.getD i 0 + f32ToInt32 (f32MulSample
          (if i < ECHO_DELAY_SAMPLES
           then st.echoBuffer.getD ((st.echoBufferIndex + i) % ECHO_DELAY_SAMPLES) 0
           else buffer.getD (i - ECHO_DELAY_SAMPLES) 0) d)) := by
  obtain ⟨_, h2⟩ := applyEcho_prefix d buffer st hc hlen i (le_of_lt hi)
  rw [applyEcho_getD d buffer _ i hi, h2]
  apply echoOutput_eq _ _ _ (getD_isInt16 buffer hbuf i) _ hd0 hd1
  split_ifs
  · exact getD_isInt16 _ hD _
  · exact getD_isInt16 buffer hbuf _

theorem clip_of_isInt16 (v : Int) (h : isInt16 v) : clip v = v := by
  unfold isInt16 at h
  unfold clip
  split_ifs <;> omega

theorem applyEchoSegments_flatten (d : Binary32) :
    ∀ (segs : List (List Int)) (st : EchoState),
      ((applyEchoSegments d st segs).1.flatten, (applyEchoSegments d st segs).2)
        = applyEcho d st segs.flatten := by
  intro segs
  induction segs with
  | nil => intro st; rfl
  | cons seg segs ih =>
    intro st
    have h := ih (applyEcho d st seg).2
    rw [List.flatten_cons, applyEcho_append, ← h]
    rfl

theorem applyEchoSegments_lengths (d : Binary32) :
    ∀ (segs : List (List Int)) (st : EchoState),
      (applyEchoSegments d st segs).1.map List.length = segs.map List.length := by
  intro segs
  induction segs with
  | nil => intro st; rfl
  | cons seg segs ih =>
    intro st
    simp only [applyEchoSegments, List.map_cons, applyEcho_length, ih]

theorem isInt16_of_mem_replicate (n : Nat) (v : Int) (hv : isInt16 v) :
    ∀ y ∈ List.replicate n v, isInt16 y := by
  intro y hy
  rw [List.eq_of_mem_replicate hy]
  exact hv

theorem getD_of_all_eq (l : List Int) (v : Int) (h : ∀ y ∈ l, y = v) (j : Nat)
    (hj : j < l.length) : l.getD j 0 = v := by
  rw [List.getD_eq_getElem _ _ hj]
  exact h _ (List.getElem_mem hj)

theorem echoOutput_isInt16 (d x y : Int) : isInt16 (echoOutput d x y) := by
  unfold echoOutput
  exact toInt16_isInt16 _

theorem echoOutput_zero_decay (x y : Int) (hx : isInt16 x) : echoOutput 0 x y = x := by
  unfold echoOutput
  simp only [f32MulSample_zero, f32ToInt32_zero, Int.add_zero]
  unfold isInt16 at hx
  rw [toInt32_of_small _ (by omega) (by omega), clip_of_isInt16 _ hx, toInt16_of_isInt16 _ hx]

theorem echoOutput_one_max : echoOutput f32One 32767 32767 = 32767 := by decide

theorem echoOutput_one_min : echoOutput f32One (-32768) (-32768) = -32768 := by decide

/-! ## Storage reader, buffer and player steps -/

theorem f_read_length_le (fp : FIL) (btr : Nat) : (f_read fp btr).2.length ≤ btr := by
  unfold f_read
  split_ifs
  · simp only [List.length_take]
    exact Nat.min_le_left _ _
  · exact Nat.zero_le _

theorem f_read_isOpen (fp : FIL) (btr : Nat) : (f_read fp btr).1.isOpen = fp.isOpen := by
  unfold f_read
  split_ifs <;> rfl

theorem f_read_data (fp : FIL) (btr : Nat) : (f_read fp btr).1.data = fp.data := by
  unfold f_read
  split_ifs <;> rfl

theorem f_read_fptr (fp : FIL) (btr : Nat) :
    (f_read fp btr).1.fptr = fp.fptr + (f_read fp btr).2.length := by
  unfold f_read
  split_ifs <;> rfl

theorem writeAt_length (buf : List Nat) (off : Nat) (bytes : List Nat)
    (h : off + bytes.length ≤ buf.length) : (writeAt buf off bytes).length = buf.length := by
  unfold writeAt
  simp only [List.length_append, List.length_take, List.length_drop]
  omega

theorem samplesOfBytes_length : ∀ (n : Nat) (l : List Nat), l.length = 2 * n →
    (samplesOfBytes l).length = n := by
  intro n
  induction n with
  | zero =>
    intro l h
    have : l = [] := List.length_eq_zero.mp (by omega)
    subst this
    rfl
  | succ n ih =>
    intro l h
    match l, h with
    | lo :: hi :: rest, h =>
      simp only [samplesOfBytes, List.length_cons]
      have : rest.length = 2 * n := by simp only [List.length_cons] at h; omega
      rw [ih rest this]

theorem checkEchoEnable_fields (pin1 pin2 : Bool) (st : Player) :
    (checkEchoEnable pin1 pin2 st).wavFile = st.wavFile ∧
    (checkEchoEnable pin1 pin2 st).fileLength = st.fileLength ∧
    (checkEchoEnable pin1 pin2 st).audioBuffer = st.audioBuffer ∧
    (checkEchoEnable pin1 pin2 st).audioRemainSize = st.audioRemainSize ∧
    (checkEchoEnable pin1 pin2 st).echoDecayFactor = st.echoDecayFactor ∧
    (checkEchoEnable pin1 pin2 st).echo = st.echo ∧
    (checkEchoEnable pin1 pin2 st).samplingFreq = st.samplingFreq ∧
    (checkEchoEnable pin1 pin2 st).playerReadBytes = st.playerReadBytes ∧
    (checkEchoEnable pin1 pin2 st).isFinished = st.isFinished ∧
    (checkEchoEnable pin1 pin2 st).playerControlSM = st.playerControlSM := by
  unfold checkEchoEnable
  split_ifs <;> simp

theorem toUInt32_sub (c r : Nat) (hc : c < 4294967296) (hr : r ≤ c) :
    toUInt32 (Int.ofNat c - Int.ofNat r) = c - r := by
  unfold toUInt32
  simp only [Int.ofNat_eq_coe]
  omega

/-- The refill body when more than half a buffer remains to be played. -/
theorem refillHalf_more (st : Player) (off : Nat)
    (h : AUDIO_BUFFER_SIZE / 2 < st.audioRemainSize) :
    (refillHalf st off).wavFile = (f_read st.wavFile (AUDIO_BUFFER_SIZE / 2)).1 ∧
    (refillHalf st off).playerReadBytes = (f_read st.wavFile (AUDIO_BUFFER_SIZE / 2)).2.length ∧
    (refillHalf st off).audioRemainSize
      = toUInt32 (Int.ofNat st.audioRemainSize
          - Int.ofNat (f_read st.wavFile (AUDIO_BUFFER_SIZE / 2)).2.length) ∧
    (refillHalf st off).playerControlSM = PLAYER_CONTROL_Idle ∧
    (refillHalf st off).fileLength = st.fileLength ∧
    (refillHalf st off).echoEnabled = st.echoEnabled ∧
    (refillHalf st off).echoDecayFactor = st.echoDecayFactor ∧
    (refillHalf st off).isFinished = st.isFinished ∧
    (st.echoEnabled = true →
      (refillHalf st off).echo
        = (applyEcho st.echoDecayFactor st.echo (samplesOfBytes
            (((writeAt st.audioBuffer off (f_read st.wavFile (AUDIO_BUFFER_SIZE / 2)).2).drop
              off).take (2 * (AUDIO_BUFFER_SIZE / 4))))).2 ∧
      (refillHalf st off).audioBuffer
        = writeAt (writeAt st.audioBuffer off (f_read st.wavFile (AUDIO_BUFFER_SIZE / 2)).2) off
            (bytesOfSamples (applyEcho st.echoDecayFactor st.echo (samplesOfBytes
              (((writeAt st.audioBuffer off (f_read st.wavFile (AUDIO_BUFFER_SIZE / 2)).2).drop
                off).take (2 * (AUDIO_BUFFER_SIZE / 4))))).1)) ∧
    (st.echoEnabled = false →
      (refillHalf st off).echo = st.echo ∧
      (refillHalf st off).audioBuffer
        = writeAt st.audioBuffer off (f_read st.wavFile (AUDIO_BUFFER_SIZE / 2)).2) := by
  unfold refillHalf
  simp only [gt_iff_lt, h, if_true]
  cases he : st.echoEnabled <;> simp [applyEchoAt, he]

/-- The refill body when at most half a buffer remains to be played. -/
theorem refillHalf_last (st : Player) (off : Nat)
    (h : st.audioRemainSize ≤ AUDIO_BUFFER_SIZE / 2) :
    (refillHalf st off).wavFile = (f_read st.wavFile (AUDIO_BUFFER_SIZE / 2)).1 ∧
    (refillHalf st off).playerReadBytes = (f_read st.wavFile (AUDIO_BUFFER_SIZE / 2)).2.length ∧
    (refillHalf st off).audioRemainSize = 0 ∧
    (refillHalf st off).playerControlSM = PLAYER_CONTROL_EndOfFile ∧
    (refillHalf st off).fileLength = st.fileLength ∧
    (refillHalf st off).echoEnabled = st.echoEnabled ∧
    (refillHalf st off).echoDecayFactor = st.echoDecayFactor ∧
    (refillHalf st off).isFinished = st.isFinished ∧
    (refillHalf st off).echo = st.echo ∧
    (refillHalf st off).audioBuffer
      = writeAt st.audioBuffer off (f_read st.wavFile (AUDIO_BUFFER_SIZE / 2)).2 := by
  unfold refillHalf
  have h2 : ¬ (AUDIO_BUFFER_SIZE / 2 < st.audioRemainSize) := by omega
  simp only [gt_iff_lt, h2, if_false]
  simp

/-- A poll with a pending half runs the refill body on that half. -/
theorem wavPlayer_process_pending (pin1 pin2 : Bool) (st : Player) (off : Nat)
    (hsm : (st.playerControlSM = PLAYER_CONTROL_HalfBuffer ∧ off = 0) ∨
           (st.playerControlSM = PLAYER_CONTROL_FullBuffer ∧ off = AUDIO_BUFFER_SIZE / 2)) :
    wavPlayer_process pin1 pin2 st = refillHalf (checkEchoEnable pin1 pin2 st) off := by
  have hf := (checkEchoEnable_fields pin1 pin2 st).2.2.2.2.2.2.2.2.2
  unfold wavPlayer_process
  simp only
  rcases hsm with ⟨h, ho⟩ | ⟨h, ho⟩
  · rw [h] at hf
    rw [hf, ho]
  · rw [h] at hf
    rw [hf, ho]

theorem f_read_open (fp : FIL) (btr : Nat) (h : fp.isOpen = true) :
    (f_read fp btr).2 = (fp.data.drop fp.fptr).take btr ∧
    (f_read fp btr).1.fptr = fp.fptr + min btr (fp.data.length - fp.fptr) := by
  unfold f_read
  simp only [h, if_true, List.length_take, List.length_drop]
  exact ⟨trivial, trivial⟩

/-- The fields of the player after `wavPlayer_play`. -/
theorem wavPlayer_play_fields (pin1 pin2 : Bool) (adc : Option Nat) (st : Player) :
    (wavPlayer_play pin1 pin2 adc st).wavFile
      = (f_read (f_lseek st.wavFile 0) AUDIO_BUFFER_SIZE).1 ∧
    (wavPlayer_play pin1 pin2 adc st).playerReadBytes
      = (f_read (f_lseek st.wavFile 0) AUDIO_BUFFER_SIZE).2.length ∧
    (wavPlayer_play pin1 pin2 adc st).audioRemainSize
      = toUInt32 (Int.ofNat st.fileLength
          - Int.ofNat (f_read (f_lseek st.wavFile 0) AUDIO_BUFFER_SIZE).2.length) ∧
    (wavPlayer_play pin1 pin2 adc st).fileLength = st.fileLength ∧
    (wavPlayer_play pin1 pin2 adc st).playerControlSM = st.playerControlSM ∧
    (wavPlayer_play pin1 pin2 adc st).echoEnabled
      = (checkEchoEnable pin1 pin2 st).echoEnabled ∧
    (wavPlayer_play pin1 pin2 adc st).echoDecayFactor
      = (updateAttenuationFactor adc (checkEchoEnable pin1 pin2 st)).echoDecayFactor ∧
    ((checkEchoEnable pin1 pin2 st).echoEnabled = false →
      (wavPlayer_play pin1 pin2 adc st).echo = st.echo ∧
      (wavPlayer_play pin1 pin2 adc st).audioBuffer
        = writeAt st.audioBuffer 0 (f_read (f_lseek st.wavFile 0) AUDIO_BUFFER_SIZE).2) ∧
    ((checkEchoEnable pin1 pin2 st).echoEnabled = true →
      (wavPlayer_play pin1 pin2 adc st).echo
        = (applyEcho (updateAttenuationFactor adc (checkEchoEnable pin1 pin2 st)).echoDecayFactor
            st.echo (samplesOfBytes
              ((writeAt st.audioBuffer 0
                (f_read (f_lseek st.wavFile 0) AUDIO_BUFFER_SIZE).2).take
                  (2 * (AUDIO_BUFFER_SIZE / 2))))).2 ∧
      (wavPlayer_play pin1 pin2 adc st).audioBuffer
        = writeAt (writeAt st.audioBuffer 0 (f_read (f_lseek st.wavFile 0) AUDIO_BUFFER_SIZE).2)
            0 (bytesOfSamples
              (applyEcho
                (updateAttenuationFactor adc (checkEchoEnable pin1 pin2 st)).echoDecayFactor
                st.echo (samplesOfBytes
                  ((writeAt st.audioBuffer 0
                    (f_read (f_lseek st.wavFile 0) AUDIO_BUFFER_SIZE).2).take
                      (2 * (AUDIO_BUFFER_SIZE / 2))))).1)) := by
  obtain ⟨c1, c2, c3, c4, c5, c6, c7, c8, c9, c10⟩ := checkEchoEnable_fields pin1 pin2 st
  have u : ∀ s : Player,
      (updateAttenuationFactor adc s).wavFile = s.wavFile ∧
      (updateAttenuationFactor adc s).fileLength = s.fileLength ∧
      (updateAttenuationFactor adc s).audioBuffer = s.audioBuffer ∧
      (updateAttenuationFactor adc s).echo = s.echo ∧
      (updateAttenuationFactor adc s).echoEnabled = s.echoEnabled ∧
      (updateAttenuationFactor adc s).playerControlSM = s.playerControlSM := by
    intro s
    unfold updateAttenuationFactor
    cases adc <;> simp
  obtain ⟨u1, u2, u3, u4, u5, u6⟩ := u (checkEchoEnable pin1 pin2 st)
  unfold wavPlayer_play
  simp only [u1, u2, u3, u4, u5, u6, c1, c2, c3, c6, c10]
  cases he : (checkEchoEnable pin1 pin2 st).echoEnabled <;>
    simp [applyEchoAt, u1, u2, u3, u4, u5, u6, c1, c2, c3, c6, c10]

/-- The initial load of `wavPlayer_play` on an open resource: the seek to offset 0 and the
read of `AUDIO_BUFFER_SIZE` bytes. -/
theorem play_read_open (file : List Nat) (pos : Nat) :
    (f_read (f_lseek { isOpen := true, data := file, fptr := pos } 0) AUDIO_BUFFER_SIZE).2
      = file.take AUDIO_BUFFER_SIZE ∧
    (f_read (f_lseek { isOpen := true, data := file, fptr := pos } 0) AUDIO_BUFFER_SIZE).1
      = { isOpen := true, data := file, fptr := min AUDIO_BUFFER_SIZE file.length } := by
  unfold f_lseek f_read
  simp

/-- One refill of a session: the read, the counter and the state it leaves. -/
theorem refillStep_read (st : Player) (sig : Signal) (pin1 pin2 : Bool) :
    (refillStep st sig pin1 pin2).wavFile = (f_read st.wavFile (AUDIO_BUFFER_SIZE / 2)).1 ∧
    (refillStep st sig pin1 pin2).playerReadBytes
      = (f_read st.wavFile (AUDIO_BUFFER_SIZE / 2)).2.length ∧
    (refillStep st sig pin1 pin2).fileLength = st.fileLength ∧
    (AUDIO_BUFFER_SIZE / 2 < st.audioRemainSize →
      (refillStep st sig pin1 pin2).audioRemainSize
        = toUInt32 (Int.ofNat st.audioRemainSize
            - Int.ofNat (f_read st.wavFile (AUDIO_BUFFER_SIZE / 2)).2.length) ∧
      (refillStep st sig pin1 pin2).playerControlSM = PLAYER_CONTROL_Idle) ∧
    (st.audioRemainSize ≤ AUDIO_BUFFER_SIZE / 2 →
      (refillStep st sig pin1 pin2).audioRemainSize = 0 ∧
      (refillStep st sig pin1 pin2).playerControlSM = PLAYER_CONTROL_EndOfFile) := by
  have hfields : (deliver sig st).wavFile = st.wavFile ∧
      (deliver sig st).audioRemainSize = st.audioRemainSize ∧
      (deliver sig st).fileLength = st.fileLength := by
    cases sig <;> exact ⟨rfl, rfl, rfl⟩
  obtain ⟨d1, d2, d3⟩ := hfields
  obtain ⟨c1, c2, _, c4, _⟩ := checkEchoEnable_fields pin1 pin2 (deliver sig st)
  have hp : ∃ off, refillStep st sig pin1 pin2
      = refillHalf (checkEchoEnable pin1 pin2 (deliver sig st)) off := by
    cases sig
    · exact ⟨0, wavPlayer_process_pending pin1 pin2 _ 0 (Or.inl ⟨rfl, rfl⟩)⟩
    · exact ⟨AUDIO_BUFFER_SIZE / 2,
        wavPlayer_process_pending pin1 pin2 _ _ (Or.inr ⟨rfl, rfl⟩)⟩
  obtain ⟨off, hoff⟩ := hp
  rw [hoff]
  by_cases h : AUDIO_BUFFER_SIZE / 2 < st.audioRemainSize
  · obtain ⟨m1, m2, m3, m4, m5, _⟩ :=
      refillHalf_more (checkEchoEnable pin1 pin2 (deliver sig st)) off (by rw [c4, d2]; exact h)
    rw [c1, d1] at m1 m2 m3
    rw [c4, d2] at m3
    rw [c2, d3] at m5
    exact ⟨m1, m2, m5, fun _ => ⟨m3, m4⟩, fun h2 => absurd h (by omega)⟩
  · obtain ⟨m1, m2, m3, m4, m5, _⟩ :=
      refillHalf_last (checkEchoEnable pin1 pin2 (deliver sig st)) off (by rw [c4, d2]; omega)
    rw [c1, d1] at m1 m2
    rw [c2, d3] at m5
    exact ⟨m1, m2, m5, fun h2 => absurd h2 h, fun _ => ⟨m3, m4⟩⟩

/-- Bytes returned by the refills of a session on an open resource of `size` bytes: with the
read position at `min size requested` before, the position plus the bytes read afterwards is
`min size (requested + 512 * refills)`. -/
theorem session_bytes (events : List (Signal × Bool × Bool)) :
    ∀ (st : Player) (requested : Nat), st.wavFile.isOpen = true →
      st.wavFile.fptr = min st.wavFile.data.length requested →
      st.wavFile.fptr + sessionBytesRead st events
        = min st.wavFile.data.length (requested + 512 * sessionRefills st events) := by
  induction events with
  | nil =>
    intro st requested _ hpos
    simp only [sessionBytesRead, sessionRefills, Nat.mul_zero, Nat.add_zero]
    exact hpos
  | cons e es ih =>
    intro st requested hopen hpos
    obtain ⟨r1, r2, _⟩ := refillStep_read st e.1 e.2.1 e.2.2
    obtain ⟨q1, q2⟩ := f_read_open st.wavFile (AUDIO_BUFFER_SIZE / 2) hopen
    have e512 : AUDIO_BUFFER_SIZE / 2 = 512 := rfl
    have hlen : (f_read st.wavFile (AUDIO_BUFFER_SIZE / 2)).2.length
        = min 512 (st.wavFile.data.length - st.wavFile.fptr) := by
      rw [q1, List.length_take, List.length_drop, e512]
    rw [e512] at q2
    unfold sessionBytesRead sessionRefills
    simp only
    rw [r2, hlen]
    split_ifs with heof
    · omega
    · have hopen1 : (refillStep st e.1 e.2.1 e.2.2).wavFile.isOpen = true := by
        rw [r1, f_read_isOpen]; exact hopen
      have hdata1 : (refillStep st e.1 e.2.1 e.2.2).wavFile.data = st.wavFile.data := by
        rw [r1, f_read_data]
      have hpos1 : (refillStep st e.1 e.2.1 e.2.2).wavFile.fptr
          = min (refillStep st e.1 e.2.1 e.2.2).wavFile.data.length (requested + 512) := by
        rw [hdata1, r1, e512, q2]
        omega
      have := ih (refillStep st e.1 e.2.1 e.2.2) (requested + 512) hopen1 hpos1
      rw [hdata1, r1, e512, q2] at this
      omega

/-- Bytes read relative to the declared length: while the counter and the read position add
up to the declared length, a session reads at most 512 bytes beyond it. -/
theorem session_overrun (events : List (Signal × Bool × Bool)) :
    ∀ (st : Player) (len : Nat), st.wavFile.isOpen = true → st.audioRemainSize < 4294967296 →
      st.audioRemainSize + st.wavFile.fptr = len →
      st.wavFile.fptr + sessionBytesRead st events ≤ len + 512 := by
  induction events with
  | nil =>
    intro st len _ _ hsum
    simp only [sessionBytesRead]
    omega
  | cons e es ih =>
    intro st len hopen hcnt hsum
    obtain ⟨r1, r2, _, r4, r5⟩ := refillStep_read st e.1 e.2.1 e.2.2
    have hle := f_read_length_le st.wavFile (AUDIO_BUFFER_SIZE / 2)
    have hfp := f_read_fptr st.wavFile (AUDIO_BUFFER_SIZE / 2)
    have e512 : AUDIO_BUFFER_SIZE / 2 = 512 := rfl
    rw [e512] at r1 r2 r4 r5 hle hfp
    unfold sessionBytesRead
    simp only
    rw [r2]
    by_cases hmore : 512 < st.audioRemainSize
    · obtain ⟨a1, a2⟩ := r4 hmore
      have hne : ¬ ((refillStep st e.1 e.2.1 e.2.2).playerControlSM
          = PLAYER_CONTROL_EndOfFile) := by
        rw [a2]; decide
      rw [if_neg hne]
      rw [toUInt32_sub _ _ hcnt (by omega)] at a1
      have hopen1 : (refillStep st e.1 e.2.1 e.2.2).wavFile.isOpen = true := by
        rw [r1, f_read_isOpen]; exact hopen
      have := ih (refillStep st e.1 e.2.1 e.2.2) len hopen1 (by rw [a1]; omega)
        (by rw [a1, r1, hfp]; omega)
      rw [r1, hfp] at this
      omega
    · obtain ⟨_, a2⟩ := r5 (by omega)
      rw [if_pos a2]
      omega

/-- A refill never raises the remaining-bytes counter. -/
theorem refillStep_counter_le (st : Player) (sig : Signal) (pin1 pin2 : Bool)
    (hcnt : st.audioRemainSize < 4294967296) :
    (refillStep st sig pin1 pin2).audioRemainSize ≤ st.audioRemainSize := by
  obtain ⟨_, _, _, r4, r5⟩ := refillStep_read st sig pin1 pin2
  have hle := f_read_length_le st.wavFile (AUDIO_BUFFER_SIZE / 2)
  have e512 : AUDIO_BUFFER_SIZE / 2 = 512 := rfl
  rw [e512] at r4 r5 hle
  by_cases h : 512 < st.audioRemainSize
  · rw [(r4 h).1, toUInt32_sub _ _ hcnt (by omega)]
    omega
  · rw [(r5 (by omega)).1]
    omega

/-- The counter after `wavPlayer_play` when the initial load does not exceed the declared
length. -/
theorem wavPlayer_play_counter (pin1 pin2 : Bool) (adc : Option Nat) (st : Player)
    (hL : st.fileLength < 4294967296)
    (hle : (wavPlayer_play pin1 pin2 adc st).playerReadBytes ≤ st.fileLength) :
    (wavPlayer_play pin1 pin2 adc st).audioRemainSize
      = st.fileLength - (wavPlayer_play pin1 pin2 adc st).playerReadBytes := by
  obtain ⟨_, p2, p3, _⟩ := wavPlayer_play_fields pin1 pin2 adc st
  rw [p2] at hle
  rw [p3, p2, toUInt32_sub _ _ hL hle]

theorem writeAt_getD (buf bytes : List Nat) (off i : Nat) (hoff : off ≤ buf.length)
    (hi : i < bytes.length) : (writeAt buf off bytes).getD (off + i) 0 = bytes.getD i 0 := by
  unfold writeAt
  have hl : (buf.take off).length = off := by
    rw [List.length_take]; omega
  simp only [List.getD_eq_getElem?_getD, List.append_assoc]
  rw [List.getElem?_append_right (by rw [hl]; omega), hl, Nat.add_sub_cancel_left,
    List.getElem?_append_left hi]

/-- A poll changes the delay state only by running the echo processor: with echo disabled
after the reading of the switch, the delay line and the cursor are left as they are. -/
theorem wavPlayer_process_echo_disabled (pin1 pin2 : Bool) (st : Player)
    (hdis : (checkEchoEnable pin1 pin2 st).echoEnabled = false) :
    (wavPlayer_process pin1 pin2 st).echo = st.echo := by
  obtain ⟨_, _, _, c4, _, c6, _, _, _, c10⟩ := checkEchoEnable_fields pin1 pin2 st
  have hpend : ∀ off, (refillHalf (checkEchoEnable pin1 pin2 st) off).echo = st.echo := by
    intro off
    by_cases h : AUDIO_BUFFER_SIZE / 2 < (checkEchoEnable pin1 pin2 st).audioRemainSize
    · rw [((refillHalf_more _ off h).2.2.2.2.2.2.2.2.2 hdis).1, c6]
    · rw [(refillHalf_last _ off (by omega)).2.2.2.2.2.2.2.2.1, c6]
  unfold wavPlayer_process
  simp only
  cases hsm : (checkEchoEnable pin1 pin2 st).playerControlSM
  · exact c6
  · exact hpend 0
  · exact hpend (AUDIO_BUFFER_SIZE / 2)
  · simp only [wavPlayer_reset]
    exact c6

/-- Completion signals change nothing but the pending indicator, which the last one sets. -/
theorem run_signals (sigs : List Signal) :
    ∀ st : Player,
      (run st (sigs.map Event.signal)).wavFile = st.wavFile ∧
      (run st (sigs.map Event.signal)).audioRemainSize = st.audioRemainSize ∧
      (run st (sigs.map Event.signal)).playerReadBytes = st.playerReadBytes ∧
      (run st (sigs.map Event.signal)).isFinished = st.isFinished ∧
      (sigs ≠ [] →
        (run st (sigs.map Event.signal)).playerControlSM = PLAYER_CONTROL_HalfBuffer ∨
        (run st (sigs.map Event.signal)).playerControlSM = PLAYER_CONTROL_FullBuffer) := by
  induction sigs with
  | nil => intro st; exact ⟨rfl, rfl, rfl, rfl, fun h => absurd rfl h⟩
  | cons g rest ih =>
    intro st
    have hrun : run st ((g :: rest).map Event.signal)
        = run (deliver g st) (rest.map Event.signal) := rfl
    obtain ⟨i1, i2, i3, i4, i5⟩ := ih (deliver g st)
    have hd : (deliver g st).wavFile = st.wavFile ∧
        (deliver g st).audioRemainSize = st.audioRemainSize ∧
        (deliver g st).playerReadBytes = st.playerReadBytes ∧
        (deliver g st).isFinished = st.isFinished ∧
        ((deliver g st).playerControlSM = PLAYER_CONTROL_HalfBuffer ∨
         (deliver g st).playerControlSM = PLAYER_CONTROL_FullBuffer) := by
      cases g
      · exact ⟨rfl, rfl, rfl, rfl, Or.inl rfl⟩
      · exact ⟨rfl, rfl, rfl, rfl, Or.inr rfl⟩
    obtain ⟨d1, d2, d3, d4, d5⟩ := hd
    rw [hrun]
    refine ⟨i1.trans d1, i2.trans d2, i3.trans d3, i4.trans d4, ?_⟩
    intro _
    cases rest with
    | nil => exact d5
    | cons g2 rest2 => exact i5 (by simp)

theorem run_append (st : Player) (es fs : List Event) :
    run st (es ++ fs) = run (run st es) fs := by
  unfold run
  exact List.foldl_append _ _ _ _

/-- Sample `i` of a run of bytes is read from bytes `2 i` and `2 i + 1`. -/
theorem samplesOfBytes_getD : ∀ (n : Nat) (l : List Nat), l.length = 2 * n →
    ∀ i, i < n →
      (samplesOfBytes l).getD i 0 = sampleOfBytes (l.getD (2 * i) 0) (l.getD (2 * i + 1) 0) := by
  intro n
  induction n with
  | zero => intro l _ i hi; omega
  | succ n ih =>
    intro l h i hi
    match l, h with
    | lo :: hi2 :: rest, h =>
      have hr : rest.length = 2 * n := by simp only [List.length_cons] at h; omega
      cases i with
      | zero => simp [samplesOfBytes]
      | succ i =>
        have := ih rest hr i (by omega)
        have e1 : 2 * (i + 1) = (2 * i) + 1 + 1 := by ring
        rw [e1]
        simpa [samplesOfBytes] using this

/-- The little-endian two's complement reading of two bytes, in plain arithmetic. -/
theorem sampleOfBytes_eq (lo hi : Nat) (hlo : lo < 256) (hhi : hi < 256) :
    sampleOfBytes lo hi
      = if lo + 256 * hi < 32768 then ((lo + 256 * hi : Nat) : Int)
        else ((lo + 256 * hi : Nat) : Int) - 65536 := by
  unfold sampleOfBytes toInt16
  simp only [Int.ofNat_eq_coe]
  split_ifs <;> omega

theorem bytesOfSamples_length (out : List Int) :
    (bytesOfSamples out).length = 2 * out.length := by
  induction out with
  | nil => rfl
  | cons v vs ih =>
    simp only [bytesOfSamples, bytesOfSample, List.length_append, List.length_cons,
      List.length_nil, ih]
    omega

/-- The bytes stored for sample `i`: bytes `2 i` and `2 i + 1` are the low and the high byte of
the sample reduced modulo `2^16`. -/
theorem bytesOfSamples_getD : ∀ (out : List Int) (i : Nat), i < out.length →
    ((bytesOfSamples out).getD (2 * i) 0 : Int)
        + 256 * ((bytesOfSamples out).getD (2 * i + 1) 0 : Int) = out.getD i 0 % 65536 ∧
    (bytesOfSamples out).getD (2 * i) 0 < 256 ∧
    (bytesOfSamples out).getD (2 * i + 1) 0 < 256 := by
  intro out
  induction out with
  | nil => intro i hi; simp at hi
  | cons v vs ih =>
    intro i hi
    cases i with
    | zero =>
      simp only [bytesOfSamples, bytesOfSample, Nat.mul_zero, Nat.zero_add,
        List.getD_eq_getElem?_getD, List.cons_append, List.nil_append, List.getElem?_cons_zero,
        List.getElem?_cons_succ, Option.getD_some]
      have h0 : (0 : Int) ≤ v % 65536 := Int.emod_nonneg _ (by decide)
      have h1 : v % 65536 < 65536 := Int.emod_lt_of_pos _ (by decide)
      omega
    | succ i =>
      have := ih i (by simpa using hi)
      have e1 : 2 * (i + 1) = (2 * i) + 1 + 1 := by ring
      rw [e1]
      simpa [bytesOfSamples, bytesOfSample] using this

theorem getD_take_drop (l : List Nat) (off n j : Nat) (hj : j < n) :
    ((l.drop off).take n).getD j 0 = l.getD (off + j) 0 := by
  simp only [List.getD_eq_getElem?_getD]
  rw [List.getElem?_take_of_lt hj, List.getElem?_drop]

/-- Bytes outside the stored range are left as they were. -/
theorem writeAt_getD_outside (buf bytes : List Nat) (off j : Nat)
    (hoff : off + bytes.length ≤ buf.length) (hj : j < off ∨ off + bytes.length ≤ j) :
    (writeAt buf off bytes).getD j 0 = buf.getD j 0 := by
  unfold writeAt
  have hl : (buf.take off).length = off := by
    rw [List.length_take]; omega
  simp only [List.getD_eq_getElem?_getD, List.append_assoc]
  rcases hj with hj | hj
  · rw [List.getElem?_append_left (by rw [hl]; exact hj), List.getElem?_take_of_lt hj]
  · rw [List.getElem?_append_right (by rw [hl]; omega), hl,
      List.getElem?_append_right (by omega), List.getElem?_drop]
    congr 2
    omega

theorem getD_lt_of_all_lt (l : List Nat) (h : ∀ b ∈ l, b < 256) (j : Nat) :
    l.getD j 0 < 256 := by
  by_cases hj : j < l.length
  · rw [List.getD_eq_getElem _ _ hj]
    exact h _ (List.getElem_mem hj)
  · rw [List.getD_eq_default _ _ (by omega)]
    decide

theorem f_read_bytes_lt (fp : FIL) (btr : Nat) (h : ∀ b ∈ fp.data, b < 256) :
    ∀ b ∈ (f_read fp btr).2, b < 256 := by
  unfold f_read
  split_ifs
  · intro b hb
    exact h b (List.mem_of_mem_drop (List.mem_of_mem_take hb))
  · intro b hb
    simp at hb

theorem writeAt_bytes_lt (buf bytes : List Nat) (off : Nat) (hbuf : ∀ b ∈ buf, b < 256)
    (hbytes : ∀ b ∈ bytes, b < 256) : ∀ b ∈ writeAt buf off bytes, b < 256 := by
  intro b hb
  unfold writeAt at hb
  simp only [List.mem_append] at hb
  rcases hb with (hb | hb) | hb
  · exact hbuf b (List.mem_of_mem_take hb)
  · exact hbytes b hb
  · exact hbuf b (List.mem_of_mem_drop hb)

/-- Control flow and accounting of the refill step of `wavPlayer_process` for a pending half (`HalfBuffer`: byte offset 0,
`FullBuffer`: byte offset 512). Exactly 512 bytes are requested from storage and stored into
that half. If the remaining-bytes counter before the step is greater than 512, it is
decremented by the number of bytes actually read, the state becomes `Idle`, and, when echo is
enabled, `applyEcho` is run over exactly the 256 samples of that half (when it is disabled the
loaded bytes and the delay state are left as they are); otherwise the counter becomes 0, the
state becomes `EndOfFile` and the echo processor is not run. -/
theorem refill_step_core (pin1 pin2 : Bool) (st : Player) (off : Nat)
    (hsm : (st.playerControlSM = PLAYER_CONTROL_HalfBuffer ∧ off = 0) ∨
           (st.playerControlSM = PLAYER_CONTROL_FullBuffer ∧ off = AUDIO_BUFFER_SIZE / 2))
    (hbuf : st.audioBuffer.length = AUDIO_BUFFER_SIZE)
    (hcnt : st.audioRemainSize < 4294967296)
    (rd : FIL × List Nat) (hrd : rd = f_read st.wavFile 512)
    (loaded : List Nat) (hloaded : loaded = writeAt st.audioBuffer off rd.2)
    (half : List Int) (hhalf : half = samplesOfBytes ((loaded.drop off).take 512))
    (r : Player) (hr : r = wavPlayer_process pin1 pin2 st) :
    r.wavFile = rd.1 ∧ r.playerReadBytes = rd.2.length ∧ rd.2.length ≤ 512 ∧
    loaded.length = 1024 ∧ half.length = 256 ∧
    (512 < st.audioRemainSize →
      r.audioRemainSize = st.audioRemainSize - rd.2.length ∧
      r.playerControlSM = PLAYER_CONTROL_Idle ∧
      ((checkEchoEnable pin1 pin2 st).echoEnabled = true →
        r.echo = (applyEcho st.echoDecayFactor st.echo half).2 ∧
        r.audioBuffer
          = writeAt loaded off (bytesOfSamples (applyEcho st.echoDecayFactor st.echo half).1)) ∧
      ((checkEchoEnable pin1 pin2 st).echoEnabled = false →
        r.echo = st.echo ∧ r.audioBuffer = loaded)) ∧
    (st.audioRemainSize ≤ 512 →
      r.audioRemainSize = 0 ∧ r.playerControlSM = PLAYER_CONTROL_EndOfFile ∧
      r.echo = st.echo ∧ r.audioBuffer = loaded) := by
  obtain ⟨c1, c2, c3, c4, c5, c6, c7, c8, c9, c10⟩ := checkEchoEnable_fields pin1 pin2 st
  have hproc := wavPlayer_process_pending pin1 pin2 st off hsm
  have hlen : rd.2.length ≤ 512 := by rw [hrd]; exact f_read_length_le _ _
  have hoff : off = 0 ∨ off = 512 := by
    rcases hsm with ⟨_, ho⟩ | ⟨_, ho⟩
    · exact Or.inl ho
    · exact Or.inr ho
  have hll : loaded.length = 1024 := by
    rw [hloaded, writeAt_length _ _ _ (by rw [hbuf]; unfold AUDIO_BUFFER_SIZE; omega), hbuf]
    rfl
  have hhl : half.length = 256 := by
    rw [hhalf]
    apply samplesOfBytes_length
    simp only [List.length_take, List.length_drop, hll]
    omega
  have e512 : AUDIO_BUFFER_SIZE / 2 = 512 := rfl
  have e256 : 2 * (AUDIO_BUFFER_SIZE / 4) = 512 := rfl
  refine ⟨?_, ?_, hlen, hll, hhl, ?_, ?_⟩
  · by_cases h : AUDIO_BUFFER_SIZE / 2 < st.audioRemainSize
    · rw [hr, hproc, (refillHalf_more _ off (by rw [c4]; exact h)).1, c1, hrd, e512]
    · rw [hr, hproc, (refillHalf_last _ off (by rw [c4]; omega)).1, c1, hrd, e512]
  · by_cases h : AUDIO_BUFFER_SIZE / 2 < st.audioRemainSize
    · rw [hr, hproc, (refillHalf_more _ off (by rw [c4]; exact h)).2.1, c1, hrd, e512]
    · rw [hr, hproc, (refillHalf_last _ off (by rw [c4]; omega)).2.1, c1, hrd, e512]
  · intro h
    obtain ⟨_, _, m3, m4, _, _, _, _, m9, m10⟩ :=
      refillHalf_more (checkEchoEnable pin1 pin2 st) off (by rw [c4, e512]; exact h)
    rw [c1, c3, c4, c5, c6, e512, e256, ← hrd, ← hloaded, ← hhalf] at *
    refine ⟨?_, ?_, ?_, ?_⟩
    · rw [hr, hproc, m3]
      exact toUInt32_sub _ _ hcnt (by omega)
    · rw [hr, hproc, m4]
    · intro he
      rw [hr, hproc]
      exact m9 he
    · intro he
      rw [hr, hproc]
      exact m10 he
  · intro h
    obtain ⟨_, _, m3, m4, _, _, _, _, m9, m10⟩ :=
      refillHalf_last (checkEchoEnable pin1 pin2 st) off (by rw [c4, e512]; exact h)
    rw [c1, c3, c6, e512, ← hrd, ← hloaded] at *
    rw [hr, hproc]
    exact ⟨m3, m4, m9, m10⟩

/-! ## Claims -/

/-- C1, as stated, fails: with decay factor `0.75`, a delay line holding `1` under the cursor
and the input sample `0`, the product is `0.75`, whose nearest integer is `1`, but `applyEcho`
writes `0`: the conversion `(int32_t)` discards the fraction instead of rounding. -/
theorem C1_round_counterexample :
    ¬ ∃ r : Int, IsNearestInteger 1 (f32OfRat 3 4) r ∧
        (applyEcho (f32OfRat 3 4)
            { echoBuffer := List.replicate ECHO_DELAY_SAMPLES 1, echoBufferIndex := 0 } [0]).1
          = [clip (0 + r)] := by
  rintro ⟨r, hr, he⟩
  have hd : f32OfRat 3 4 = Int.ofNat (3 * 2 ^ 147) := by decide
  have hout : (applyEcho (f32OfRat 3 4)
      { echoBuffer := List.replicate ECHO_DELAY_SAMPLES 1, echoBufferIndex := 0 } [0]).1
        = [0] := by decide
  rw [hout] at he
  unfold IsNearestInteger at hr
  rw [hd] at hr
  have h149 : (Int.ofNat (2 ^ 149) : Int) = 4 * Int.ofNat (2 ^ 147) := by decide
  rw [h149] at hr
  have h3 : (Int.ofNat (3 * 2 ^ 147) : Int) = 3 * Int.ofNat (2 ^ 147) := by decide
  rw [h3] at hr
  have hpos : (0 : Int) < Int.ofNat (2 ^ 147) := by decide
  generalize Int.ofNat (2 ^ 147) = u at hr hpos
  have hr1 : r = 1 := by
    have e : r * (4 * u) - 1 * (3 * u) = (4 * r - 3) * u := by ring
    rw [e, abs_mul, abs_of_pos hpos] at hr
    have h4 : 2 * |4 * r - 3| ≤ 4 := by
      by_contra hc
      have : 5 ≤ 2 * |4 * r - 3| := by omega
      nlinarith
    have := abs_le.mp (show |4 * r - 3| ≤ 2 by omega)
    omega
  subst hr1
  have : clip (0 + 1) = 1 := by decide
  rw [this] at he
  exact absurd he (by decide)

/-- C1, amended: for every segment of `int16_t` samples, every delay-line content, every
cursor below 48000 and every decay factor in `[0.0, 1.0]`, `applyEcho` returns as many samples
as it was given and writes for sample `i` the clip to `[-32768, 32767]` of the exact sum of
`sample[i]` and the binary32 product `delayed * decayFactor` truncated toward zero (not
rounded), where `delayed` is the delay-line entry under the cursor in the state reached after
the samples before `i`; the cursor is then `(cursor + i) mod 48000`, and `delayed` is the
entry present before the call for `i < 48000` and the original sample `i - 48000` after. -/
theorem C1_applyEcho_output (d : Binary32) (echoBuffer : List Int) (echoBufferIndex : Nat)
    (buffer : List Int) (hd0 : 0 ≤ d) (hd1 : d ≤ f32One)
    (hc : echoBufferIndex < ECHO_DELAY_SAMPLES)
    (hlen : echoBuffer.length = ECHO_DELAY_SAMPLES)
    (hD : ∀ y ∈ echoBuffer, isInt16 y)
    (hbuf : ∀ x ∈ buffer, isInt16 x) :
    (applyEcho d ⟨echoBuffer, echoBufferIndex⟩ buffer).1.length = buffer.length ∧
    ∀ i, i < buffer.length →
      (applyEcho d ⟨echoBuffer, echoBufferIndex⟩ buffer).1.getD i 0
        = clip (buffer.getD i 0 + f32ToInt32 (f32MulSample
            ((applyEcho d ⟨echoBuffer, echoBufferIndex⟩ (buffer.take i)).2.echoBuffer.getD
              (applyEcho d ⟨echoBuffer, echoBufferIndex⟩ (buffer.take i)).2.echoBufferIndex 0)
            d))
      ∧ (applyEcho d ⟨echoBuffer, echoBufferIndex⟩ (buffer.take i)).2.echoBufferIndex
        = (echoBufferIndex + i) % ECHO_DELAY_SAMPLES
      ∧ (applyEcho d ⟨echoBuffer, echoBufferIndex⟩ (buffer.take i)).2.echoBuffer.getD
            (applyEcho d ⟨echoBuffer, echoBufferIndex⟩ (buffer.take i)).2.echoBufferIndex 0
        = if i < ECHO_DELAY_SAMPLES
          then echoBuffer.getD ((echoBufferIndex + i) % ECHO_DELAY_SAMPLES) 0
          else buffer.getD (i - ECHO_DELAY_SAMPLES) 0 := by
  refine ⟨applyEcho_length d buffer _, ?_⟩
  intro i hi
  obtain ⟨h1, h2⟩ :=
    applyEcho_prefix d buffer ⟨echoBuffer, echoBufferIndex⟩ hc hlen i (le_of_lt hi)
  refine ⟨?_, h1, h2⟩
  rw [applyEcho_getD d buffer _ i hi]
  apply echoOutput_eq _ _ _ (getD_isInt16 buffer hbuf i) _ hd0 hd1
  rw [h2]
  split_ifs
  · exact getD_isInt16 _ hD _
  · exact getD_isInt16 buffer hbuf _

/-- Witness of C1: decay factor `0.75`, delay line holding `1` everywhere, cursor `0`, segment
`[0, 5]`; the second sample meets the entry `1` under cursor `1`. -/
theorem C1_applyEcho_output_witness :
    (0 ≤ f32OfRat 3 4 ∧ f32OfRat 3 4 ≤ f32One) ∧
    (applyEcho (f32OfRat 3 4) ⟨List.replicate ECHO_DELAY_SAMPLES 1, 0⟩ [0, 5]).1.getD 1 0
      = clip (5 + f32ToInt32 (f32MulSample
          ((applyEcho (f32OfRat 3 4) ⟨List.replicate ECHO_DELAY_SAMPLES 1, 0⟩ [0]).2.echoBuffer.getD
            (applyEcho (f32OfRat 3 4) ⟨List.replicate ECHO_DELAY_SAMPLES 1, 0⟩
              [0]).2.echoBufferIndex 0) (f32OfRat 3 4)))
    ∧ (applyEcho (f32OfRat 3 4) ⟨List.replicate ECHO_DELAY_SAMPLES 1, 0⟩ [0]).2.echoBufferIndex
        = 1
    ∧ (applyEcho (f32OfRat 3 4) ⟨List.replicate ECHO_DELAY_SAMPLES 1, 0⟩ [0]).2.echoBuffer.getD
          (applyEcho (f32OfRat 3 4) ⟨List.replicate ECHO_DELAY_SAMPLES 1, 0⟩
            [0]).2.echoBufferIndex 0 = 1 :=
  ⟨⟨by decide, by decide⟩,
   (C1_applyEcho_output (f32OfRat 3 4) (List.replicate ECHO_DELAY_SAMPLES 1) 0 [0, 5]
      (by decide) (by decide) (by decide) (List.length_replicate _ _)
      (isInt16_of_mem_replicate _ 1 (by decide)) (by decide)).2 1 (by decide)⟩

/-- C2: single-tap feed-forward echo over the whole stream. Starting from the all-zero delay
line with cursor 0, for every stream of `int16_t` samples cut into any sequence of segments
passed to `applyEcho` in order with a constant decay factor in `[0.0, 1.0]`, the segments keep
their lengths, output sample `n` of the stream is `x[n]` for `n < 48000` and the clipped sum
of `x[n]` and the scaled original sample `x[n - 48000]` for `n >= 48000`, and the delay line
holds only zeros and original samples of the stream (the entry `k` places ahead of the cursor
is the original sample `48000 - k` places before the end of the stream). The scaled sample is
pinned in plain arithmetic, in units of `2^-149`: it is the exact product `x[n - 48000] * d`
with its fraction discarded whenever that product has at most 24 significant binary digits,
and in every case it has the sign of `x[n - 48000]`, is less than one away from the product
and is not beyond it by more than the binary32 rounding of the product (`2^-9`). -/
theorem C2_single_tap_over_stream (d : Binary32) (segs : List (List Int))
    (hd0 : 0 ≤ d) (hd1 : d ≤ f32One) (hx : ∀ x ∈ segs.flatten, isInt16 x) :
    (applyEchoSegments d echoInit segs).1.map List.length = segs.map List.length ∧
    (∀ n, n < segs.flatten.length →
      (applyEchoSegments d echoInit segs).1.flatten.getD n 0
        = if n < ECHO_DELAY_SAMPLES then segs.flatten.getD n 0
          else clip (segs.flatten.getD n 0
                + f32ToInt32 (f32MulSample (segs.flatten.getD (n - ECHO_DELAY_SAMPLES) 0) d))) ∧
    (applyEchoSegments d echoInit segs).2.echoBufferIndex
        = segs.flatten.length % ECHO_DELAY_SAMPLES ∧
    (∀ k, k < ECHO_DELAY_SAMPLES →
      (applyEchoSegments d echoInit segs).2.echoBuffer.getD
          ((segs.flatten.length + k) % ECHO_DELAY_SAMPLES) 0
        = if segs.flatten.length + k < ECHO_DELAY_SAMPLES then 0
          else segs.flatten.getD (segs.flatten.length + k - ECHO_DELAY_SAMPLES) 0) ∧
    (∀ n, ECHO_DELAY_SAMPLES ≤ n → n < segs.flatten.length →
      ∃ e : Int,
        (applyEchoSegments d echoInit segs).1.flatten.getD n 0
          = clip (segs.flatten.getD n 0 + e) ∧
        0 ≤ e * segs.flatten.getD (n - ECHO_DELAY_SAMPLES) 0 ∧
        e.natAbs * 2 ^ 149
          ≤ (segs.flatten.getD (n - ECHO_DELAY_SAMPLES) 0 * d).natAbs + 2 ^ 140 ∧
        (segs.flatten.getD (n - ECHO_DELAY_SAMPLES) 0 * d).natAbs
          < e.natAbs * 2 ^ 149 + 2 ^ 149 + 2 ^ 140 ∧
        (∀ m k : Nat, m < 2 ^ 24 →
          (segs.flatten.getD (n - ECHO_DELAY_SAMPLES) 0 * d).natAbs = m * 2 ^ k →
          e.natAbs = (segs.flatten.getD (n - ECHO_DELAY_SAMPLES) 0 * d).natAbs / 2 ^ 149)) := by
  have hfl := applyEchoSegments_flatten d segs echoInit
  have h1 : (applyEchoSegments d echoInit segs).1.flatten
      = (applyEcho d echoInit segs.flatten).1 := congrArg Prod.fst hfl
  have h2 : (applyEchoSegments d echoInit segs).2
      = (applyEcho d echoInit segs.flatten).2 := congrArg Prod.snd hfl
  have hc0 : echoInit.echoBufferIndex < ECHO_DELAY_SAMPLES := by decide
  have hl0 : echoInit.echoBuffer.length = ECHO_DELAY_SAMPLES := List.length_replicate _ _
  have hD0 : ∀ y ∈ echoInit.echoBuffer, isInt16 y :=
    isInt16_of_mem_replicate _ 0 (by decide)
  have hz : ∀ j, echoInit.echoBuffer.getD j 0 = 0 := by
    intro j
    simp only [echoInit, List.getD_eq_getElem?_getD, List.getElem?_replicate]
    split_ifs <;> rfl
  refine ⟨applyEchoSegments_lengths d segs echoInit, ?_, ?_, ?_, ?_⟩
  · intro n hn
    rw [h1, applyEcho_sample d echoInit segs.flatten hd0 hd1 hc0 hl0 hD0 hx n hn]
    by_cases hlt : n < ECHO_DELAY_SAMPLES
    · rw [if_pos hlt, if_pos hlt, hz, f32MulSample_zero_left, f32ToInt32_zero, Int.add_zero]
      exact clip_of_isInt16 _ (getD_isInt16 _ hx n)
    · rw [if_neg hlt, if_neg hlt]
  · rw [h2, applyEcho_cursor d segs.flatten echoInit hc0]
    simp [echoInit]
  · intro k hk
    rw [h2]
    have := applyEcho_delay d segs.flatten echoInit hc0 hl0 k hk
    rw [hz] at this
    simpa [echoInit] using this
  · intro n hge hn
    have hnlt : ¬ n < ECHO_DELAY_SAMPLES := by omega
    obtain ⟨s1, s2, s3, s4⟩ :=
      scaled_spec (segs.flatten.getD (n - ECHO_DELAY_SAMPLES) 0) d (getD_isInt16 _ hx _) hd0 hd1
    refine ⟨f32ToInt32 (f32MulSample (segs.flatten.getD (n - ECHO_DELAY_SAMPLES) 0) d),
      ?_, s3, s1, s2, s4⟩
    rw [h1, applyEcho_sample d echoInit segs.flatten hd0 hd1 hc0 hl0 hD0 hx n hn, if_neg hnlt]

/-- Witness of C2: decay factor `0.75` and the stream `4`, 47999 zeros, `10`, cut into three
segments; output sample 48000 is `10` plus the echo `3` of the first sample. -/
theorem C2_single_tap_over_stream_witness :
    (0 ≤ f32OfRat 3 4 ∧ f32OfRat 3 4 ≤ f32One) ∧
    (applyEchoSegments (f32OfRat 3 4) echoInit demoStream).1.flatten.getD 48000 0 = 13 := by
  have hx : ∀ x ∈ demoStream.flatten, isInt16 x := by
    intro x hx
    simp only [demoStream, List.flatten_cons, List.flatten_nil, List.append_nil,
      List.mem_append, List.mem_singleton, List.mem_replicate] at hx
    rcases hx with h | ⟨_, h⟩ | h <;> subst h <;> decide
  have hl : demoStream.flatten.length = 48001 := by
    unfold demoStream
    rw [List.flatten_cons, List.flatten_cons, List.flatten_cons, List.flatten_nil,
      List.length_append, List.length_append, List.length_replicate]
    rfl
  have hlen : 48000 < demoStream.flatten.length := by
    rw [hl]; decide
  have h := (C2_single_tap_over_stream (f32OfRat 3 4) demoStream (by decide) (by decide)
    hx).2.1 48000 hlen
  have e1 : demoStream.flatten.getD 48000 0 = 10 := by decide!
  have e2 : demoStream.flatten.getD (48000 - ECHO_DELAY_SAMPLES) 0 = 4 := by decide!
  rw [if_neg (by decide), e1, e2] at h
  refine ⟨⟨by decide, by decide⟩, ?_⟩
  rw [h]
  decide

/-- C3: refill step of `wavPlayer_process` for a pending half (`HalfBuffer`: byte offset 0,
`FullBuffer`: byte offset 512). Exactly 512 bytes are requested from storage and stored into
that half: the bytes returned are in the buffer from the offset of the half on, every other
byte of the buffer is as before. If the remaining-bytes counter before the step is greater
than 512, it is decremented by the number of bytes actually read, the state becomes `Idle`,
and, when echo is enabled, `applyEcho` is run over exactly the 256 samples of that half (when
it is disabled the loaded bytes and the delay state are left as they are); otherwise the
counter becomes 0, the state becomes `EndOfFile` and the echo processor is not run. Sample
`i` of the half is the little-endian two's complement reading of bytes `2 i` and `2 i + 1` of
the half, and the echoed sample `i` is stored back into these two bytes (low byte first, the
sample reduced modulo `2^16`), the other half of the buffer being untouched. -/
theorem C3_refill_step (pin1 pin2 : Bool) (st : Player) (off : Nat)
    (hsm : (st.playerControlSM = PLAYER_CONTROL_HalfBuffer ∧ off = 0) ∨
           (st.playerControlSM = PLAYER_CONTROL_FullBuffer ∧ off = AUDIO_BUFFER_SIZE / 2))
    (hbuf : st.audioBuffer.length = AUDIO_BUFFER_SIZE)
    (hcnt : st.audioRemainSize < 4294967296)
    (rd : FIL × List Nat) (hrd : rd = f_read st.wavFile 512)
    (loaded : List Nat) (hloaded : loaded = writeAt st.audioBuffer off rd.2)
    (half : List Int) (hhalf : half = samplesOfBytes ((loaded.drop off).take 512))
    (r : Player) (hr : r = wavPlayer_process pin1 pin2 st) :
    (r.wavFile = rd.1 ∧ r.playerReadBytes = rd.2.length ∧ rd.2.length ≤ 512 ∧
     loaded.length = 1024 ∧ half.length = 256 ∧
     (512 < st.audioRemainSize →
       r.audioRemainSize = st.audioRemainSize - rd.2.length ∧
       r.playerControlSM = PLAYER_CONTROL_Idle ∧
       ((checkEchoEnable pin1 pin2 st).echoEnabled = true →
         r.echo = (applyEcho st.echoDecayFactor st.echo half).2 ∧
         r.audioBuffer
           = writeAt loaded off
               (bytesOfSamples (applyEcho st.echoDecayFactor st.echo half).1)) ∧
       ((checkEchoEnable pin1 pin2 st).echoEnabled = false →
         r.echo = st.echo ∧ r.audioBuffer = loaded)) ∧
     (st.audioRemainSize ≤ 512 →
       r.audioRemainSize = 0 ∧ r.playerControlSM = PLAYER_CONTROL_EndOfFile ∧
       r.echo = st.echo ∧ r.audioBuffer = loaded)) ∧
    ((∀ i, i < rd.2.length → loaded.getD (off + i) 0 = rd.2.getD i 0) ∧
     (∀ j, j < off ∨ off + rd.2.length ≤ j → loaded.getD j 0 = st.audioBuffer.getD j 0)) ∧
    ((∀ b ∈ st.audioBuffer, b < 256) → (∀ b ∈ st.wavFile.data, b < 256) →
      ∀ i, i < 256 →
        half.getD i 0
          = if loaded.getD (off + 2 * i) 0 + 256 * loaded.getD (off + 2 * i + 1) 0 < 32768
            then ((loaded.getD (off + 2 * i) 0
                    + 256 * loaded.getD (off + 2 * i + 1) 0 : Nat) : Int)
            else ((loaded.getD (off + 2 * i) 0
                    + 256 * loaded.getD (off + 2 * i + 1) 0 : Nat) : Int) - 65536) ∧
    (512 < st.audioRemainSize → (checkEchoEnable pin1 pin2 st).echoEnabled = true →
      r.audioBuffer.length = 1024 ∧
      (∀ i, i < 256 →
        (r.audioBuffer.getD (off + 2 * i) 0 : Int)
            + 256 * (r.audioBuffer.getD (off + 2 * i + 1) 0 : Int)
          = (applyEcho st.echoDecayFactor st.echo half).1.getD i 0 % 65536 ∧
        r.audioBuffer.getD (off + 2 * i) 0 < 256 ∧
        r.audioBuffer.getD (off + 2 * i + 1) 0 < 256) ∧
      (∀ j, j < off ∨ off + 512 ≤ j → r.audioBuffer.getD j 0 = st.audioBuffer.getD j 0)) := by
  have core := refill_step_core pin1 pin2 st off hsm hbuf hcnt rd hrd loaded hloaded half
    hhalf r hr
  have ⟨_, _, hlen, hll, hhl, hmore, _⟩ := core
  have e1024 : AUDIO_BUFFER_SIZE = 1024 := rfl
  have hoff : off = 0 ∨ off = 512 := by
    rcases hsm with ⟨_, ho⟩ | ⟨_, ho⟩
    · exact Or.inl ho
    · exact Or.inr ho
  have hbl : st.audioBuffer.length = 1024 := by rw [hbuf, e1024]
  have hfit : off + rd.2.length ≤ st.audioBuffer.length := by omega
  have hload_in : ∀ i, i < rd.2.length → loaded.getD (off + i) 0 = rd.2.getD i 0 := by
    intro i hi
    rw [hloaded]
    exact writeAt_getD _ _ off i (by omega) hi
  have hload_out : ∀ j, j < off ∨ off + rd.2.length ≤ j →
      loaded.getD j 0 = st.audioBuffer.getD j 0 := by
    intro j hj
    rw [hloaded]
    exact writeAt_getD_outside _ _ off j hfit hj
  refine ⟨core, ⟨hload_in, hload_out⟩, ?_, ?_⟩
  · intro hB hF i hi
    have hrdB : ∀ b ∈ rd.2, b < 256 := by rw [hrd]; exact f_read_bytes_lt _ _ hF
    have hlB : ∀ b ∈ loaded, b < 256 := by
      rw [hloaded]; exact writeAt_bytes_lt _ _ _ hB hrdB
    have hlen2 : ((loaded.drop off).take 512).length = 2 * 256 := by
      simp only [List.length_take, List.length_drop, hll]
      omega
    rw [hhalf, samplesOfBytes_getD 256 _ hlen2 i hi,
      getD_take_drop loaded off 512 (2 * i) (by omega),
      getD_take_drop loaded off 512 (2 * i + 1) (by omega),
      sampleOfBytes_eq _ _ (getD_lt_of_all_lt _ hlB _) (getD_lt_of_all_lt _ hlB _)]
    rfl
  · intro hgt hen
    obtain ⟨_, _, hE, _⟩ := hmore hgt
    obtain ⟨_, hab⟩ := hE hen
    have hol : (applyEcho st.echoDecayFactor st.echo half).1.length = 256 := by
      rw [applyEcho_length, hhl]
    have hbytes : (bytesOfSamples (applyEcho st.echoDecayFactor st.echo half).1).length
        = 512 := by
      rw [bytesOfSamples_length, hol]
    refine ⟨?_, ?_, ?_⟩
    · rw [hab, writeAt_length _ _ _ (by rw [hbytes, hll]; omega), hll]
    · intro i hi
      have h0 := writeAt_getD loaded
        (bytesOfSamples (applyEcho st.echoDecayFactor st.echo half).1)
        off (2 * i) (by omega) (by rw [hbytes]; omega)
      have h1 := writeAt_getD loaded
        (bytesOfSamples (applyEcho st.echoDecayFactor st.echo half).1)
        off (2 * i + 1) (by omega) (by rw [hbytes]; omega)
      rw [← Nat.add_assoc] at h1
      rw [hab, h0, h1]
      exact bytesOfSamples_getD _ i (by rw [hol]; exact hi)
    · intro j hj
      rw [hab, writeAt_getD_outside _ _ off j (by rw [hbytes, hll]; omega)
        (by rw [hbytes]; exact hj)]
      exact hload_out j (by omega)

/-- Witness of C3. The scenario of the claim: the header declares `L = 1536`, the initial load
of `wavPlayer_play` leaves the counter at 512, and the poll after the next first-half signal
leaves the counter at 0 and the state machine in `EndOfFile`, not `Idle`. And a refill with
echo enabled: counter 612, decay factor `0.5`, delay line at `100`; the 512 bytes read are
all `7`, so every sample of the half is `0x0707 = 1799`, the counter becomes 100, the state
`Idle`, and the first sample is stored back as `1799 + 50 = 1849 = 57 + 256 * 7`. -/
theorem C3_refill_step_witness :
    (demoSelected.fileLength = 1536 ∧ demoPlaying.audioRemainSize = 512 ∧
     (wavPlayer_process false false
        (audioI2S_halfTransfer_Callback demoPlaying)).audioRemainSize = 0 ∧
     (wavPlayer_process false false
        (audioI2S_halfTransfer_Callback demoPlaying)).playerControlSM
       = PLAYER_CONTROL_EndOfFile) ∧
    (demoEchoPending.audioRemainSize = 612 ∧
     (wavPlayer_process true true demoEchoPending).audioRemainSize = 100 ∧
     (wavPlayer_process true true demoEchoPending).playerControlSM = PLAYER_CONTROL_Idle ∧
     (samplesOfBytes (((writeAt demoEchoPending.audioBuffer 0
        (f_read demoEchoPending.wavFile 512).2).drop 0).take 512)).getD 0 0 = 1799 ∧
     ((wavPlayer_process true true demoEchoPending).audioBuffer.getD 0 0 : Int)
        + 256 * ((wavPlayer_process true true demoEchoPending).audioBuffer.getD 1 0 : Int)
       = 1849) := by
  have hA := C3_refill_step false false (audioI2S_halfTransfer_Callback demoPlaying) 0
    (Or.inl ⟨rfl, rfl⟩) (by decide!) (by decide!) _ rfl _ rfl _ rfl _ rfl
  have hB := C3_refill_step true true demoEchoPending 0
    (Or.inl ⟨rfl, rfl⟩) (by decide!) (by decide!) _ rfl _ rfl _ rfl _ rfl
  obtain ⟨⟨_, _, _, _, _, _, hlast⟩, _⟩ := hA
  obtain ⟨⟨_, _, _, _, _, hmore, _⟩, _, hsample, hstore⟩ := hB
  obtain ⟨a1, a2, _⟩ := hlast (by decide!)
  obtain ⟨b1, b2, _⟩ := hmore (by decide!)
  have hs0 := hsample (by decide!) (by decide!) 0 (by decide)
  obtain ⟨_, hst, _⟩ := hstore (by decide!) (by decide!)
  have hst0 := (hst 0 (by decide)).1
  refine ⟨⟨by decide!, by decide!, a1, a2⟩, by decide!, ?_, b2, ?_, ?_⟩
  · rw [b1]; decide!
  · rw [hs0]; decide!
  · exact hst0.trans (by decide!)

/-- C4: for every value of the remaining-bytes counter and every result of the read, after a
refill step (the `HalfBuffer` or `FullBuffer` case of `wavPlayer_process`) the counter is
zero if and only if the step left the state machine in `EndOfFile`. -/
theorem C4_counter_zero_iff_end (pin1 pin2 : Bool) (st : Player) (off : Nat)
    (hsm : (st.playerControlSM = PLAYER_CONTROL_HalfBuffer ∧ off = 0) ∨
           (st.playerControlSM = PLAYER_CONTROL_FullBuffer ∧ off = AUDIO_BUFFER_SIZE / 2))
    (hcnt : st.audioRemainSize < 4294967296) :
    (wavPlayer_process pin1 pin2 st).audioRemainSize = 0 ↔
      (wavPlayer_process pin1 pin2 st).playerControlSM = PLAYER_CONTROL_EndOfFile := by
  obtain ⟨c1, _, _, c4, _⟩ := checkEchoEnable_fields pin1 pin2 st
  rw [wavPlayer_process_pending pin1 pin2 st off hsm]
  have hlen := f_read_length_le st.wavFile (AUDIO_BUFFER_SIZE / 2)
  have e512 : AUDIO_BUFFER_SIZE / 2 = 512 := rfl
  by_cases h : AUDIO_BUFFER_SIZE / 2 < st.audioRemainSize
  · obtain ⟨_, _, m3, m4, _⟩ :=
      refillHalf_more (checkEchoEnable pin1 pin2 st) off (by rw [c4]; exact h)
    rw [m3, m4, c1, c4, toUInt32_sub _ _ hcnt (by omega)]
    constructor
    · intro h0; omega
    · intro h0; exact absurd h0 (by decide)
  · obtain ⟨_, _, m3, m4, _⟩ :=
      refillHalf_last (checkEchoEnable pin1 pin2 st) off (by rw [c4]; omega)
    rw [m3, m4]
    exact ⟨fun _ => rfl, fun _ => rfl⟩

/-- Witness of C4: the first-half refill after the initial load of the 1544-byte file. -/
theorem C4_counter_zero_iff_end_witness :
    (audioI2S_halfTransfer_Callback demoPlaying).audioRemainSize = 512 ∧
    ((wavPlayer_process false false (audioI2S_halfTransfer_Callback demoPlaying)).audioRemainSize
        = 0 ↔
      (wavPlayer_process false false
        (audioI2S_halfTransfer_Callback demoPlaying)).playerControlSM
        = PLAYER_CONTROL_EndOfFile) :=
  ⟨by decide!,
   C4_counter_zero_iff_end false false (audioI2S_halfTransfer_Callback demoPlaying) 0
     (Or.inl ⟨rfl, rfl⟩) (by decide!)⟩

/-- C5, as stated, fails: on the canonical file of 1644 bytes the declared length is 1636; the
initial load reads 1024 bytes, the first refill 512 and the second, which ends the session, the
remaining 108, so 1644 bytes are read: more than the declared length, and not
`min(L, sum of the read requests) = min(1636, 2048)`. -/
theorem C5_reads_beyond_length_counterexample :
    (playing demoFileLong).fileLength = 1636 ∧
    (session (playing demoFileLong)
      [(Signal.halfTransfer, false, false), (Signal.fullTransfer, false, false)]).playerControlSM
        = PLAYER_CONTROL_EndOfFile ∧
    (playing demoFileLong).playerReadBytes + sessionBytesRead (playing demoFileLong)
      [(Signal.halfTransfer, false, false), (Signal.fullTransfer, false, false)] = 1644 ∧
    ¬ ((playing demoFileLong).playerReadBytes + sessionBytesRead (playing demoFileLong)
        [(Signal.halfTransfer, false, false), (Signal.fullTransfer, false, false)]
          ≤ (playing demoFileLong).fileLength) ∧
    ¬ ((playing demoFileLong).playerReadBytes + sessionBytesRead (playing demoFileLong)
        [(Signal.halfTransfer, false, false), (Signal.fullTransfer, false, false)]
          = min (playing demoFileLong).fileLength
              (1024 + 512 * sessionRefills (playing demoFileLong)
                [(Signal.halfTransfer, false, false), (Signal.fullTransfer, false, false)])) := by
  decide!

/-- C5, amended: for every declared length `L` and every content of an open storage resource,
the total number of bytes read over a session (the initial 1024-byte load of `wavPlayer_play`
plus the 512-byte refills of `wavPlayer_process` up to end-of-stream) equals
`min(size of the resource, sum of the read requests)`: the reads are cut by the end of the
resource, not by `L`. When the initial load does not exceed `L`, the total never exceeds
`L + 512`: only the last refill can read beyond the declared length. -/
theorem C5_session_bytes_read (pin1 pin2 : Bool) (adc : Option Nat) (st : Player)
    (file : List Nat) (pos : Nat) (events : List (Signal × Bool × Bool))
    (hopen : st.wavFile = { isOpen := true, data := file, fptr := pos })
    (p : Player) (hp : p = wavPlayer_play pin1 pin2 adc st) :
    p.playerReadBytes + sessionBytesRead p events
      = min file.length (1024 + 512 * sessionRefills p events) ∧
    (p.playerReadBytes ≤ st.fileLength → st.fileLength < 4294967296 →
      p.playerReadBytes + sessionBytesRead p events ≤ st.fileLength + 512) := by
  obtain ⟨p1, p2, p3, _⟩ := wavPlayer_play_fields pin1 pin2 adc st
  rw [← hp, hopen] at p1 p2 p3
  obtain ⟨q1, q2⟩ := play_read_open file pos
  have e1024 : AUDIO_BUFFER_SIZE = 1024 := rfl
  rw [q2, e1024] at p1
  rw [q1, List.length_take, e1024] at p2 p3
  have hopen1 : p.wavFile.isOpen = true := by rw [p1]
  have hfp : p.wavFile.fptr = min 1024 file.length := by rw [p1]
  have hdata : p.wavFile.data = file := by rw [p1]
  constructor
  · have := session_bytes events p 1024 hopen1 (by rw [hfp, hdata]; omega)
    rw [hfp, hdata] at this
    rw [p2]
    exact this
  · intro hle hL
    rw [p2] at hle
    rw [toUInt32_sub _ _ hL hle] at p3
    have := session_overrun events p st.fileLength hopen1 (by rw [p3]; omega)
      (by rw [p3, hfp]; omega)
    rw [hfp] at this
    rw [p2]
    exact this

/-- Witness of C5: the session on the canonical file of 1644 bytes. -/
theorem C5_session_bytes_read_witness :
    (playing demoFileLong).playerReadBytes + sessionBytesRead (playing demoFileLong)
      [(Signal.halfTransfer, false, false), (Signal.fullTransfer, false, false)]
      = min demoFileLong.length (1024 + 512 * sessionRefills (playing demoFileLong)
          [(Signal.halfTransfer, false, false), (Signal.fullTransfer, false, false)]) :=
  (C5_session_bytes_read false false none (selected demoFileLong) demoFileLong 44
    [(Signal.halfTransfer, false, false), (Signal.fullTransfer, false, false)]
    (by decide!) (playing demoFileLong) rfl).1

/-- C6 at the failing input, the canonical header of the 1544-byte file: the sample rate is
the field at byte offset 24 (8000), but the total length stored by `wavPlayer_fileSelect` is
1536, the `FileSize` field at byte offset 4, whereas the sub-chunk-2 size field at byte offset
40, the size of the audio data, is 1500. -/
theorem C6_fileLength_is_not_data_size :
    (wavPlayer_fileSelect (diskWith demoFile) (List.replicate WAV_HEADER_SIZE 0) playerInit
        "a.wav").1 = true ∧
    (wavPlayer_fileSelect (diskWith demoFile) (List.replicate WAV_HEADER_SIZE 0) playerInit
        "a.wav").2.samplingFreq = readU32 demoFile 24 ∧
    readU32 demoFile 24 = 8000 ∧
    (wavPlayer_fileSelect (diskWith demoFile) (List.replicate WAV_HEADER_SIZE 0) playerInit
        "a.wav").2.fileLength = 1536 ∧
    readU32 demoFile 4 = 1536 ∧
    readU32 demoFile 40 = 1500 ∧
    ¬ ((wavPlayer_fileSelect (diskWith demoFile) (List.replicate WAV_HEADER_SIZE 0) playerInit
        "a.wav").2.fileLength = readU32 demoFile 40) := by
  decide!

/-- C8 at the failing input, a canonical file of 1000 bytes (`FileSize = 992`): the initial
load of `wavPlayer_play` returns 1000 bytes, and the counter `fileLength - playerReadBytes`
wraps to `2^32 - 8`, above the declared length; the next refill reads nothing, leaves the
counter there and the state machine in `Idle`. -/
theorem C8_counter_wraps_at_start :
    (selected demoFileShort).fileLength = 992 ∧
    (playing demoFileShort).playerReadBytes = 1000 ∧
    (playing demoFileShort).audioRemainSize = 4294967288 ∧
    ¬ ((playing demoFileShort).audioRemainSize ≤ (selected demoFileShort).fileLength) ∧
    (refillStep (playing demoFileShort) Signal.halfTransfer false false).playerReadBytes = 0 ∧
    (refillStep (playing demoFileShort) Signal.halfTransfer false false).audioRemainSize
      = 4294967288 ∧
    (refillStep (playing demoFileShort) Signal.halfTransfer false false).playerControlSM
      = PLAYER_CONTROL_Idle := by
  decide!

/-- C9: saturation without wrap. For every segment of `int16_t` samples, delay line, cursor
below 48000 and decay factor in `[0.0, 1.0]`, every output sample of `applyEcho` lies in
`[-32768, 32767]` and equals the bound whenever the exact sum of the sample and the scaled
delayed sample lies beyond it; with decay factor `1.0`, samples all `32767` against delay-line
entries all `32767` give outputs all `32767`, and samples all `-32768` against entries all
`-32768` give outputs all `-32768`. -/
theorem C9_saturation (d : Binary32) (echoBuffer : List Int) (echoBufferIndex : Nat)
    (buffer : List Int) (hd0 : 0 ≤ d) (hd1 : d ≤ f32One)
    (hc : echoBufferIndex < ECHO_DELAY_SAMPLES)
    (hlen : echoBuffer.length = ECHO_DELAY_SAMPLES)
    (hD : ∀ y ∈ echoBuffer, isInt16 y)
    (hbuf : ∀ x ∈ buffer, isInt16 x) :
    (∀ i, i < buffer.length →
      isInt16 ((applyEcho d ⟨echoBuffer, echoBufferIndex⟩ buffer).1.getD i 0) ∧
      (32767 < buffer.getD i 0 + f32ToInt32 (f32MulSample
          (if i < ECHO_DELAY_SAMPLES
           then echoBuffer.getD ((echoBufferIndex + i) % ECHO_DELAY_SAMPLES) 0
           else buffer.getD (i - ECHO_DELAY_SAMPLES) 0) d) →
        (applyEcho d ⟨echoBuffer, echoBufferIndex⟩ buffer).1.getD i 0 = 32767) ∧
      (buffer.getD i 0 + f32ToInt32 (f32MulSample
          (if i < ECHO_DELAY_SAMPLES
           then echoBuffer.getD ((echoBufferIndex + i) % ECHO_DELAY_SAMPLES) 0
           else buffer.getD (i - ECHO_DELAY_SAMPLES) 0) d) < -32768 →
        (applyEcho d ⟨echoBuffer, echoBufferIndex⟩ buffer).1.getD i 0 = -32768)) ∧
    (d = f32One → (∀ y ∈ echoBuffer, y = 32767) → (∀ x ∈ buffer, x = 32767) →
      (applyEcho d ⟨echoBuffer, echoBufferIndex⟩ buffer).1
        = List.replicate buffer.length 32767) ∧
    (d = f32One → (∀ y ∈ echoBuffer, y = -32768) → (∀ x ∈ buffer, x = -32768) →
      (applyEcho d ⟨echoBuffer, echoBufferIndex⟩ buffer).1
        = List.replicate buffer.length (-32768)) := by
  have hs := applyEcho_sample d ⟨echoBuffer, echoBufferIndex⟩ buffer hd0 hd1 hc hlen hD hbuf
  simp only at hs
  have hmod : ∀ i, (echoBufferIndex + i) % ECHO_DELAY_SAMPLES < echoBuffer.length := by
    intro i; rw [hlen]; exact Nat.mod_lt _ (by decide)
  have hall : ∀ v : Int, echoOutput f32One v v = v → d = f32One →
      (∀ y ∈ echoBuffer, y = v) → (∀ x ∈ buffer, x = v) →
      (applyEcho d ⟨echoBuffer, echoBufferIndex⟩ buffer).1 = List.replicate buffer.length v := by
    intro v hv hd hE hB
    apply List.ext_getElem
    · rw [applyEcho_length, List.length_replicate]
    · intro i h1 h2
      have hi : i < buffer.length := by rw [applyEcho_length] at h1; exact h1
      rw [List.getElem_replicate, ← List.getD_eq_getElem _ 0 h1, applyEcho_getD d buffer _ i hi]
      obtain ⟨_, hp⟩ :=
        applyEcho_prefix d buffer ⟨echoBuffer, echoBufferIndex⟩ hc hlen i (le_of_lt hi)
      rw [hp, getD_of_all_eq buffer v hB i hi]
      have hdel : (if i < ECHO_DELAY_SAMPLES
          then echoBuffer.getD ((echoBufferIndex + i) % ECHO_DELAY_SAMPLES) 0
          else buffer.getD (i - ECHO_DELAY_SAMPLES) 0) = v := by
        split_ifs
        · exact getD_of_all_eq echoBuffer v hE _ (hmod i)
        · exact getD_of_all_eq buffer v hB _ (by omega)
      simp only at hdel
      rw [hdel, hd]
      exact hv
  refine ⟨?_, hall 32767 echoOutput_one_max, hall (-32768) echoOutput_one_min⟩
  intro i hi
  refine ⟨?_, ?_, ?_⟩
  · rw [applyEcho_getD d buffer _ i hi]
    exact echoOutput_isInt16 _ _ _
  · intro h
    rw [hs i hi]
    unfold clip
    rw [if_pos h]
  · intro h
    rw [hs i hi]
    unfold clip
    rw [if_neg (by omega), if_pos h]

/-- Witness of C9: decay factor `1.0`, delay line and segment at the positive bound. -/
theorem C9_saturation_witness :
    (0 ≤ f32One ∧ f32One ≤ f32One) ∧
    (applyEcho f32One ⟨List.replicate ECHO_DELAY_SAMPLES 32767, 0⟩ [32767, 32767]).1
      = List.replicate [(32767 : Int), 32767].length 32767 :=
  ⟨⟨by decide, by decide⟩,
   (C9_saturation f32One (List.replicate ECHO_DELAY_SAMPLES 32767) 0 [32767, 32767]
      (by decide) (by decide) (by decide) (List.length_replicate _ _)
      (isInt16_of_mem_replicate _ 32767 (by decide)) (by decide)).2.1 rfl
      (fun _ hy => List.eq_of_mem_replicate hy) (by decide)⟩

/-- C10: with decay factor `0.0`, `applyEcho` is the identity on the segment: for every
segment of `int16_t` samples, every delay-line content and every cursor position, the samples
written back equal the samples read. -/
theorem C10_zero_decay_identity (echoBuffer : List Int) (echoBufferIndex : Nat)
    (buffer : List Int) (hbuf : ∀ x ∈ buffer, isInt16 x) :
    (applyEcho 0 ⟨echoBuffer, echoBufferIndex⟩ buffer).1 = buffer := by
  induction buffer generalizing echoBuffer echoBufferIndex with
  | nil => rfl
  | cons x xs ih =>
    rw [applyEcho_cons]
    have hx : isInt16 x := hbuf x (List.mem_cons_self _ _)
    have hxs : ∀ y ∈ xs, isInt16 y := fun y hy => hbuf y (List.mem_cons_of_mem _ hy)
    have h1 : (applyEchoStep 0 ⟨echoBuffer, echoBufferIndex⟩ x).1 = x := by
      simp only [applyEchoStep]
      exact echoOutput_zero_decay _ _ hx
    simp only [h1]
    congr 1
    exact ih _ _ hxs

/-- Witness of C10: a delay line full of `1234`, cursor `7`, and a three-sample segment. -/
theorem C10_zero_decay_identity_witness :
    (applyEcho 0 ⟨List.replicate ECHO_DELAY_SAMPLES 1234, 7⟩ [100, -32768, 32767]).1
      = [100, -32768, 32767] :=
  C10_zero_decay_identity (List.replicate ECHO_DELAY_SAMPLES 1234) 7 [100, -32768, 32767]
    (by decide)

/-- C11: when echo is disabled (the echo switch reads low at the step), the playback-start
step `wavPlayer_play` and every poll of `wavPlayer_process` leave the delay line and the delay
cursor unchanged, and the bytes loaded by the step (1024 bytes from offset 0 of the buffer at
playback start, 512 bytes into the pending half at a refill) are in the audio buffer exactly
as the read returned them. -/
theorem C11_echo_disabled_frame (pin1 pin2 : Bool) (adc : Option Nat) (st : Player)
    (hdis : (checkEchoEnable pin1 pin2 st).echoEnabled = false)
    (hbuf : st.audioBuffer.length = AUDIO_BUFFER_SIZE) :
    ((wavPlayer_play pin1 pin2 adc st).echo = st.echo ∧
     (wavPlayer_play pin1 pin2 adc st).audioBuffer
       = writeAt st.audioBuffer 0 (f_read (f_lseek st.wavFile 0) 1024).2 ∧
     ∀ i, i < (f_read (f_lseek st.wavFile 0) 1024).2.length →
       (wavPlayer_play pin1 pin2 adc st).audioBuffer.getD i 0
         = (f_read (f_lseek st.wavFile 0) 1024).2.getD i 0) ∧
    (wavPlayer_process pin1 pin2 st).echo = st.echo ∧
    (∀ off,
      ((st.playerControlSM = PLAYER_CONTROL_HalfBuffer ∧ off = 0) ∨
       (st.playerControlSM = PLAYER_CONTROL_FullBuffer ∧ off = 512)) →
      (wavPlayer_process pin1 pin2 st).audioBuffer
        = writeAt st.audioBuffer off (f_read st.wavFile 512).2 ∧
      ∀ i, i < (f_read st.wavFile 512).2.length →
        (wavPlayer_process pin1 pin2 st).audioBuffer.getD (off + i) 0
          = (f_read st.wavFile 512).2.getD i 0) := by
  obtain ⟨c1, _, c3, c4, _, c6, _, _, _, _⟩ := checkEchoEnable_fields pin1 pin2 st
  have e1024 : AUDIO_BUFFER_SIZE = 1024 := rfl
  have e512 : AUDIO_BUFFER_SIZE / 2 = 512 := rfl
  refine ⟨?_, wavPlayer_process_echo_disabled pin1 pin2 st hdis, ?_⟩
  · obtain ⟨_, _, _, _, _, _, _, p8, _⟩ := wavPlayer_play_fields pin1 pin2 adc st
    obtain ⟨h1, h2⟩ := p8 hdis
    rw [e1024] at h2
    refine ⟨h1, h2, ?_⟩
    intro i hi
    rw [h2]
    have := writeAt_getD st.audioBuffer (f_read (f_lseek st.wavFile 0) 1024).2 0 i
      (Nat.zero_le _) hi
    rw [Nat.zero_add] at this
    exact this
  · intro off hsm
    have hsm2 : (st.playerControlSM = PLAYER_CONTROL_HalfBuffer ∧ off = 0) ∨
        (st.playerControlSM = PLAYER_CONTROL_FullBuffer ∧ off = AUDIO_BUFFER_SIZE / 2) := by
      rw [e512]; exact hsm
    have hoff : off ≤ st.audioBuffer.length := by
      rw [hbuf, e1024]
      rcases hsm with ⟨_, ho⟩ | ⟨_, ho⟩ <;> omega
    have hb : (wavPlayer_process pin1 pin2 st).audioBuffer
        = writeAt st.audioBuffer off (f_read st.wavFile 512).2 := by
      rw [wavPlayer_process_pending pin1 pin2 st off hsm2]
      by_cases h : AUDIO_BUFFER_SIZE / 2 < (checkEchoEnable pin1 pin2 st).audioRemainSize
      · rw [((refillHalf_more _ off h).2.2.2.2.2.2.2.2.2 hdis).2, c3, c1, e512]
      · rw [(refillHalf_last _ off (by omega)).2.2.2.2.2.2.2.2.2, c3, c1, e512]
    refine ⟨hb, ?_⟩
    intro i hi
    rw [hb]
    exact writeAt_getD _ _ off i hoff hi

/-- Witness of C11: playback start on the 1544-byte file with the echo switch off. -/
theorem C11_echo_disabled_frame_witness :
    (checkEchoEnable false false demoSelected).echoEnabled = false ∧
    (wavPlayer_play false false none demoSelected).echo = demoSelected.echo :=
  ⟨by decide!,
   (C11_echo_disabled_frame false false none demoSelected (by decide!) (by decide!)).1.1⟩

/-- C12: circular addressing of the delay cursor. For every starting cursor `s < 48000` and
every number `n` of samples processed by `applyEcho`, the cursor afterwards is
`(s + n) mod 48000`; the cursor under which each sample is processed is below 48000, so every
access to the delay line is in bounds; after exactly 48000 samples the cursor is `s` again,
and starting from 0 after `48000 + k` samples with `k < 48000` it is `k`. -/
theorem C12_cursor_circular (d : Binary32) (st : EchoState) (buffer : List Int)
    (hc : st.echoBufferIndex < ECHO_DELAY_SAMPLES) :
    (applyEcho d st buffer).2.echoBufferIndex
      = (st.echoBufferIndex + buffer.length) % ECHO_DELAY_SAMPLES ∧
    (∀ i, i ≤ buffer.length →
      (applyEcho d st (buffer.take i)).2.echoBufferIndex
        = (st.echoBufferIndex + i) % ECHO_DELAY_SAMPLES ∧
      (applyEcho d st (buffer.take i)).2.echoBufferIndex < ECHO_DELAY_SAMPLES) ∧
    (buffer.length = ECHO_DELAY_SAMPLES →
      (applyEcho d st buffer).2.echoBufferIndex = st.echoBufferIndex) ∧
    (st.echoBufferIndex = 0 → ∀ k, k < ECHO_DELAY_SAMPLES →
      buffer.length = ECHO_DELAY_SAMPLES + k →
      (applyEcho d st buffer).2.echoBufferIndex = k) := by
  have hcur := applyEcho_cursor d buffer st hc
  refine ⟨hcur, ?_, ?_, ?_⟩
  · intro i hi
    have h := applyEcho_cursor d (buffer.take i) st hc
    have hl : (buffer.take i).length = i := by simp [hi]
    rw [hl] at h
    exact ⟨h, by rw [h]; exact Nat.mod_lt _ (by decide)⟩
  · intro hn
    rw [hcur, hn, Nat.add_mod_right, Nat.mod_eq_of_lt hc]
  · intro h0 k hk hn
    rw [hcur, h0, hn, Nat.zero_add, Nat.add_mod_left, Nat.mod_eq_of_lt hk]

/-- Witness of C12: two samples processed from cursor 47999 leave the cursor at 1. -/
theorem C12_cursor_circular_witness :
    (47999 < ECHO_DELAY_SAMPLES) ∧
    (applyEcho 0 ⟨List.replicate ECHO_DELAY_SAMPLES 0, 47999⟩ [5, 6]).2.echoBufferIndex
      = (47999 + [(5 : Int), 6].length) % ECHO_DELAY_SAMPLES :=
  ⟨by decide,
   (C12_cursor_circular 0 ⟨List.replicate ECHO_DELAY_SAMPLES 0, 47999⟩ [5, 6] (by decide)).1⟩

/-- C13, as stated, fails: after the refill that leaves the state machine in `EndOfFile` on the
1544-byte file, a completion signal delivered before the next poll overwrites the state, and
that poll performs another refill instead of ending the session: the finished flag is not
set, the file is still open and the state machine is in `EndOfFile`, not `Idle`. -/
theorem C13_signal_before_poll_counterexample :
    (refillStep demoPlaying Signal.halfTransfer false false).playerControlSM
      = PLAYER_CONTROL_EndOfFile ∧
    (run (refillStep demoPlaying Signal.halfTransfer false false)
      [Event.signal Signal.fullTransfer, Event.poll false false]).isFinished = false ∧
    (run (refillStep demoPlaying Signal.halfTransfer false false)
      [Event.signal Signal.fullTransfer, Event.poll false false]).wavFile.isOpen = true ∧
    (run (refillStep demoPlaying Signal.halfTransfer false false)
      [Event.signal Signal.fullTransfer, Event.poll false false]).playerControlSM
      = PLAYER_CONTROL_EndOfFile := by
  decide!

/-- C13, amended: when the state machine is in `EndOfFile`, a poll of `wavPlayer_process` that
comes before any further completion signal ends the session: it closes the file, resets the
remaining-bytes counter and the read-bytes cursor to zero, sets the finished flag and returns
the state to `Idle`. Completion signals delivered before that poll overwrite `EndOfFile` with
a pending half; the poll then performs one more refill, which (the counter being at most 512,
as it is after the refill that reached `EndOfFile`) leaves the counter at 0 and the state
machine in `EndOfFile` again, with the file and the finished flag as they were. -/
theorem C13_end_of_file_poll (pin1 pin2 : Bool) (st : Player)
    (hsm : st.playerControlSM = PLAYER_CONTROL_EndOfFile) :
    ((run st [Event.poll pin1 pin2]).wavFile.isOpen = false ∧
     (run st [Event.poll pin1 pin2]).audioRemainSize = 0 ∧
     (run st [Event.poll pin1 pin2]).playerReadBytes = 0 ∧
     (run st [Event.poll pin1 pin2]).isFinished = true ∧
     (run st [Event.poll pin1 pin2]).playerControlSM = PLAYER_CONTROL_Idle) ∧
    (∀ sigs : List Signal, sigs ≠ [] → st.audioRemainSize ≤ 512 →
      (run st (sigs.map Event.signal ++ [Event.poll pin1 pin2])).playerControlSM
        = PLAYER_CONTROL_EndOfFile ∧
      (run st (sigs.map Event.signal ++ [Event.poll pin1 pin2])).audioRemainSize = 0 ∧
      (run st (sigs.map Event.signal ++ [Event.poll pin1 pin2])).isFinished = st.isFinished ∧
      (run st (sigs.map Event.signal ++ [Event.poll pin1 pin2])).wavFile.isOpen
        = st.wavFile.isOpen) := by
  constructor
  · have hrun : run st [Event.poll pin1 pin2] = wavPlayer_process pin1 pin2 st := rfl
    have hf := (checkEchoEnable_fields pin1 pin2 st).2.2.2.2.2.2.2.2.2
    rw [hsm] at hf
    rw [hrun]
    unfold wavPlayer_process
    simp only [hf, wavPlayer_reset, f_close]
    exact ⟨trivial, trivial, trivial, trivial, trivial⟩
  · intro sigs hne hcnt
    obtain ⟨s1, s2, _, s4, s5⟩ := run_signals sigs st
    have hrun : run st (sigs.map Event.signal ++ [Event.poll pin1 pin2])
        = wavPlayer_process pin1 pin2 (run st (sigs.map Event.signal)) := by
      rw [run_append]; rfl
    obtain ⟨c1, _, _, c4, _, _, _, _, c9, _⟩ :=
      checkEchoEnable_fields pin1 pin2 (run st (sigs.map Event.signal))
    have hpend : ∃ off, wavPlayer_process pin1 pin2 (run st (sigs.map Event.signal))
        = refillHalf (checkEchoEnable pin1 pin2 (run st (sigs.map Event.signal))) off := by
      rcases s5 hne with h | h
      · exact ⟨0, wavPlayer_process_pending pin1 pin2 _ 0 (Or.inl ⟨h, rfl⟩)⟩
      · exact ⟨AUDIO_BUFFER_SIZE / 2,
          wavPlayer_process_pending pin1 pin2 _ _ (Or.inr ⟨h, rfl⟩)⟩
    obtain ⟨off, hoff⟩ := hpend
    have e512 : AUDIO_BUFFER_SIZE / 2 = 512 := rfl
    obtain ⟨m1, _, m3, m4, _, _, _, m8, _⟩ :=
      refillHalf_last (checkEchoEnable pin1 pin2 (run st (sigs.map Event.signal))) off
        (by rw [c4, s2, e512]; exact hcnt)
    rw [hrun, hoff]
    refine ⟨m4, m3, ?_, ?_⟩
    · rw [m8, c9, s4]
    · rw [m1, f_read_isOpen, c1, s1]

/-- Witness of C13: the poll that follows the `EndOfFile` refill on the 1544-byte file. -/
theorem C13_end_of_file_poll_witness :
    (refillStep demoPlaying Signal.halfTransfer false false).playerControlSM
      = PLAYER_CONTROL_EndOfFile ∧
    (run (refillStep demoPlaying Signal.halfTransfer false false)
      [Event.poll false false]).isFinished = true ∧
    (run (refillStep demoPlaying Signal.halfTransfer false false)
      [Event.poll false false]).playerControlSM = PLAYER_CONTROL_Idle :=
  ⟨by decide!,
   (C13_end_of_file_poll false false (refillStep demoPlaying Signal.halfTransfer false false)
      (by decide!)).1.2.2.2.1,
   (C13_end_of_file_poll false false (refillStep demoPlaying Signal.halfTransfer false false)
      (by decide!)).1.2.2.2.2⟩

/-- C14 on the code: `audioI2S_pllClockConfig` uses the table values only when
`(freqindex & 0x7) == 0`, that is for index 0: it programs `N = 256, R = 5` for 8000 Hz and
the default `N = 258, R = 3` for every other frequency, listed or not. At 44100 Hz (index 5
of `I2SFreq`, table values `N = 271, R = 6`) it programs `N = 258, R = 3`. -/
theorem C14_pll_table_only_at_index_zero :
    (∀ audioFreq : Nat,
      audioI2S_pllClockConfig audioFreq = if audioFreq = 8000 then (256, 5) else (258, 3)) ∧
    I2SFreq.getD 5 0 = 44100 ∧ I2SPLLN.getD 5 0 = 271 ∧ I2SPLLR.getD 5 0 = 6 ∧
    audioI2S_pllClockConfig 44100 = (258, 3) := by
  refine ⟨?_, by decide, by decide, by decide, by decide⟩
  intro audioFreq
  unfold audioI2S_pllClockConfig
  simp only [freqIndexLoop, I2SFreq, I2SPLLN, I2SPLLR]
  by_cases h0 : audioFreq = 8000
  · subst h0; decide
  · by_cases h1 : audioFreq = 11025
    · subst h1; decide
    · by_cases h2 : audioFreq = 16000
      · subst h2; decide
      · by_cases h3 : audioFreq = 22050
        · subst h3; decide
        · by_cases h4 : audioFreq = 32000
          · subst h4; decide
          · by_cases h5 : audioFreq = 44100
            · subst h5; decide
            · by_cases h6 : audioFreq = 48000
              · subst h6; decide
              · by_cases h7 : audioFreq = 96000
                · subst h7; decide
                · have e0 : ¬ (8000 = audioFreq) := fun e => h0 e.symm
                  have e1 : ¬ (11025 = audioFreq) := fun e => h1 e.symm
                  have e2 : ¬ (16000 = audioFreq) := fun e => h2 e.symm
                  have e3 : ¬ (22050 = audioFreq) := fun e => h3 e.symm
                  have e4 : ¬ (32000 = audioFreq) := fun e => h4 e.symm
                  have e5 : ¬ (44100 = audioFreq) := fun e => h5 e.symm
                  have e6 : ¬ (48000 = audioFreq) := fun e => h6 e.symm
                  have e7 : ¬ (96000 = audioFreq) := fun e => h7 e.symm
                  simp [h0, e0, e1, e2, e3, e4, e5, e6, e7]

end WavPlayer
